import Mathlib

/-!
# libcitygml `citymodel.cpp`: shallow embedding and verified properties

The C++ objects are modelled as values and every method as a function from the
state before the call to the state after it.  Coordinates are rationals (the
values of finite `double`s).  The distance test of `LinearRing::finish` and the
narrowing of the normal to `float` are evaluated in binary floating-point
arithmetic, every operation rounded to nearest; the Newell accumulator is taken
in exact arithmetic.  Pointers to appearances are addresses (`Nat`), the null
pointer is `none`.  Operations whose C++ behaviour is undefined (a null
dereference, a write past the end of a `std::vector`) return `Except.error`.
-/

namespace citygml

/-! ## Binary floating-point rounding

The arithmetic of `double` and `float` (IEEE 754 binary64 and binary32, round to
nearest, ties to even, gradual underflow).  A result beyond the largest finite
value is an infinity in C++; here it stays the finite value rounded with an
unbounded exponent, which every comparison with a finite bound orders as the
infinity is ordered. -/

/-- The integer nearest to `n / d`, the even one of two equally near. -/
def roundHalfEven (n d : Nat) : Nat :=
  let f := n / d
  let r := n % d
  if 2 * r < d then f else if d < 2 * r then f + 1 else if f % 2 = 0 then f else f + 1

/-- The loop of `log2`: count the halvings that lead below 2. -/
def log2Loop : Nat → Nat → Nat
  | 0, _ => 0
  | fuel + 1, n => if n < 2 then 0 else log2Loop fuel (n / 2) + 1

/-- The position of the leading binary digit of `n`. -/
def log2 (n : Nat) : Nat := log2Loop n n

/-- The binary exponent of the positive fraction `n / d`: the `e` with
`2 ^ e ≤ n / d < 2 ^ (e + 1)`. -/
def floorLog2 (n d : Nat) : Int :=
  let k : Int := (log2 n : Int) - (log2 d : Int)
  if 0 ≤ k then (if d * 2 ^ k.toNat ≤ n then k else k - 1)
  else (if d ≤ n * 2 ^ (-k).toNat then k else k - 1)

/-- Rounding to the nearest value of a binary format with `prec` significant
bits whose least positive value is `2 ^ emin`: the multiple of the quantum
`2 ^ max (e - (prec - 1)) emin` nearest to `q`, ties to even, where `e` is the
binary exponent of `q`. -/
def roundBinary (prec : Nat) (emin : Int) (q : ℚ) : ℚ :=
  if q = 0 then 0
  else
    let n := q.num.natAbs
    let d := q.den
    let qe := max (floorLog2 n d - ((prec : Int) - 1)) emin
    let mag : ℚ :=
      if 0 ≤ qe then ((roundHalfEven n (d * 2 ^ qe.toNat) * 2 ^ qe.toNat : Nat) : ℚ)
      else ((roundHalfEven (n * 2 ^ (-qe).toNat) d : Nat) : ℚ) / ((2 ^ (-qe).toNat : Nat) : ℚ)
    if q < 0 then -mag else mag

/-- Rounding to `double` (53 significant bits, least positive value
`2 ^ (-1074)`). -/
def roundDouble (q : ℚ) : ℚ := roundBinary 53 (-1074) q

/-- Rounding to `float` (24 significant bits, least positive value
`2 ^ (-149)`), the conversion `(float)`. -/
def roundFloat (q : ℚ) : ℚ := roundBinary 24 (-149) q

/-! ## Vectors -/

/-- Modelled from the spec: the 3D point/vector value type of the missing header
`vecs.h` ("Point/Vector (3D, double precision)"); a coordinate is the rational
value of a finite `double`. -/
structure TVec3d where
  x : ℚ
  y : ℚ
  z : ℚ
deriving DecidableEq

namespace TVec3d

/-- Modelled from the spec: the default-constructed vector `TVec3d()` of the
missing header `vecs.h`, the zero vector. -/
def zero : TVec3d := ⟨0, 0, 0⟩

/-- Modelled from the spec: vector subtraction (`operator-` of the missing
header `vecs.h`), component-wise, in exact arithmetic. -/
def sub (a b : TVec3d) : TVec3d := ⟨a.x - b.x, a.y - b.y, a.z - b.z⟩

/-- Modelled from the spec: vector subtraction (`operator-` of the missing
header `vecs.h`) as `double` arithmetic evaluates it, every component
difference rounded. -/
def subDouble (a b : TVec3d) : TVec3d :=
  ⟨roundDouble (a.x - b.x), roundDouble (a.y - b.y), roundDouble (a.z - b.z)⟩

/-- Modelled from the spec: unary minus (`operator-` of the missing header
`vecs.h`), component-wise. -/
def neg (a : TVec3d) : TVec3d := ⟨-a.x, -a.y, -a.z⟩

/-- Modelled from the spec: squared length (`sqrLength` of the missing header
`vecs.h`), in exact arithmetic. -/
def sqrLength (a : TVec3d) : ℚ := a.x * a.x + a.y * a.y + a.z * a.z

/-- Modelled from the spec: squared length (`sqrLength` of the missing header
`vecs.h`, `x*x + y*y + z*z`) as `double` arithmetic evaluates it, every product
and every sum rounded, the sums taken from the left. -/
def sqrLengthDouble (a : TVec3d) : ℚ :=
  roundDouble (roundDouble (roundDouble (a.x * a.x) + roundDouble (a.y * a.y))
    + roundDouble (a.z * a.z))

/-- The coordinates of `p` are values of `double`: rounding leaves them as they
are. -/
def IsDouble (p : TVec3d) : Prop :=
  roundDouble p.x = p.x ∧ roundDouble p.y = p.y ∧ roundDouble p.z = p.z

/-- Modelled from the spec: normalisation (`normal` of the missing header
`vecs.h`), "returns zero vector if degenerate": the vector scaled by the inverse
of its length, the zero vector when the length is zero.  The square root has no
exact rational value and is the parameter `sqrt`. -/
def normal (sqrt : ℚ → ℚ) (a : TVec3d) : TVec3d :=
  let len := sqrt a.sqrLength
  let tmp := if len ≠ 0 then 1 / len else 0
  ⟨a.x * tmp, a.y * tmp, a.z * tmp⟩

end TVec3d

/-! ## LinearRing -/

/-- A ring: identifier, ordered points, exterior/interior flag. -/
structure LinearRing where
  id : String
  vertices : List TVec3d
  exterior : Bool
deriving DecidableEq

namespace LinearRing

/-- The call `size()`. -/
def size (r : LinearRing) : Nat := r.vertices.length

/-- One pass of the body of the `for` loop of `computeNormal`: the accumulator
`n` after edge `i` of a ring of `len` points. -/
def newellStep (v : List TVec3d) (len : Nat) (n : TVec3d) (i : Nat) : TVec3d :=
  let current := v.getD i TVec3d.zero
  let next := v.getD ((i + 1) % len) TVec3d.zero
  { x := n.x + (current.y - next.y) * (current.z + next.z)
    y := n.y + (current.z - next.z) * (current.x + next.x)
    z := n.z + (current.x - next.x) * (current.y + next.y) }

/-- The accumulator `n` of `computeNormal` when its `for` loop ends, before
`n.normal()` is taken. -/
def newellAccumulator (r : LinearRing) : TVec3d :=
  (List.range r.size).foldl (newellStep r.vertices r.size) ⟨0, 0, 0⟩

/-- The method `LinearRing::computeNormal`.  The normalisation `TVec3d::normal` of the
missing header `vecs.h` is the parameter `normal` (`TVec3d.normal sqrt` models
it from the spec). -/
def computeNormal (normal : TVec3d → TVec3d) (r : LinearRing) : TVec3d :=
  if r.size < 3 then TVec3d.zero else normal r.newellAccumulator

/-- The ring with its points in reverse order. -/
def reversed (r : LinearRing) : LinearRing := { r with vertices := r.vertices.reverse }

/-- The test of `finish`,
`( _vertices[i] - _vertices[ ( i + 1 ) % len ] ).sqrLength() < 0.00000001`, in
`double` arithmetic; the literal is the `double` nearest to `1e-8`. -/
def nearDuplicate (a b : TVec3d) : Bool :=
  decide ((a.subDouble b).sqrLengthDouble < roundDouble (1 / 100000000))

/-- The scan of the `for` loop of `finish`: the first `i < len` whose point is
an epsilon-duplicate of point `(i + 1) % len`. -/
def firstDuplicate (v : List TVec3d) : Option Nat :=
  (List.range v.length).find? fun i =>
    nearDuplicate (v.getD i TVec3d.zero) (v.getD ((i + 1) % v.length) TVec3d.zero)

/-- The method `LinearRing::finish` on the point sequence: return when fewer than two
points, else erase the first point found by the scan and start again. -/
def finishVertices (v : List TVec3d) : List TVec3d :=
  if v.length < 2 then v
  else
    match h : firstDuplicate v with
    | none => v
    | some i => finishVertices (v.eraseIdx i)
termination_by v.length
decreasing_by
  have hi : i < v.length := by
    have hmem := List.mem_of_find?_eq_some h
    simpa using hmem
  rw [List.length_eraseIdx]
  simp [hi]
  omega

/-- The method `LinearRing::finish`. -/
def finish (r : LinearRing) : LinearRing := { r with vertices := finishVertices r.vertices }

/-- No two cyclically adjacent points of `v` are epsilon-duplicates by the test
of `finish`. -/
def Clean (v : List TVec3d) : Prop :=
  ∀ i, i < v.length →
    ¬ ((v.getD i TVec3d.zero).subDouble
          (v.getD ((i + 1) % v.length) TVec3d.zero)).sqrLengthDouble
        < roundDouble (1 / 100000000)

end LinearRing

/-! ## Faults and buffer helpers -/

/-- What a call does instead of returning when the C++ has no defined
behaviour. -/
inductive Fault where
  | nullDereference
  | outOfBounds
deriving DecidableEq, Repr

/-- The call `std::vector::resize( n )`: truncate to `n` entries or pad with the
default value `d`. -/
def resize {α : Type} (l : List α) (n : Nat) (d : α) : List α :=
  l.take n ++ List.replicate (n - l.length) d

/-- The copy loops of `Polygon::merge`:
`for ( i = 0; i < pSize; i++ ) dst[ off + i ] = f( src[i] )`. -/
def copyLoop {α β : Type} (f : α → β) (d : α) (src : List α) (pSize off : Nat)
    (dst : List β) : List β :=
  (List.range pSize).foldl (fun acc i => acc.set (off + i) (f (src.getD i d))) dst

/-- An assignment `v[ i ] = a` through the unchecked `operator[]`: defined only
inside the buffer. -/
def writeAt {α : Type} (l : List α) (i : Nat) (a : α) : Except Fault (List α) :=
  if i < l.length then .ok (l.set i a) else .error .outOfBounds

/-- Conversion of a `size_t` value to `int` (two's complement, 32 bits). -/
def toInt32 (n : Nat) : Int :=
  if n % 4294967296 < 2147483648 then (n % 4294967296 : Nat) else (n % 4294967296 : Nat) - 4294967296

/-! ## Polygon -/

/-- Modelled from the spec: the 2D texture coordinate value type of the missing
header `vecs.h`. -/
structure TVec2f where
  x : ℚ
  y : ℚ
deriving DecidableEq

/-- Modelled from the spec: the single-precision 3D vector type of the missing
header `vecs.h`, used for normals. -/
structure TVec3f where
  x : ℚ
  y : ℚ
  z : ℚ
deriving DecidableEq

/-- A texture-coordinate set (`TexCoords`). -/
abbrev TexCoords := List TVec2f

/-- The fields of `Polygon`.  `appearance` is the `Appearance*` (an address,
`none` for NULL), `geometry` the `Geometry*` back pointer, `exteriorRing` is
`none` for NULL. -/
structure Polygon where
  id : String
  vertices : List TVec3d
  normals : List TVec3f
  indices : List Nat
  texCoords : TexCoords
  appearance : Option Nat
  exteriorRing : Option LinearRing
  interiorRings : List LinearRing
  negNormal : Bool
  geometry : Option Nat
deriving DecidableEq

namespace Polygon

/-- The method `Polygon::clearRings`. -/
def clearRings (p : Polygon) : Polygon := { p with exteriorRing := none, interiorRings := [] }

/-- The inner loop of `mergeRings`,
`for ( unsigned int j = 0; j < 3; j++ ) _indices[ p + j ] = i + j;`. -/
def fillTriangle (p i : Nat) (indices : List Nat) : Except Fault (List Nat) :=
  (List.range 3).foldlM (fun idx j => writeAt idx (p + j) (i + j)) indices

/-- One pass of the outer loop of `mergeRings` on the pair of `p` and the index
buffer: the inner loop, then `p += 3`. -/
def fillPass (st : Nat × List Nat) (i : Nat) : Except Fault (Nat × List Nat) :=
  (fun idx => (st.1 + 3, idx)) <$> fillTriangle st.1 i st.2

/-- The index-filling loop of `mergeRings`,
`for ( int i = 0, p = 0; i < indicesSize - 2; i++, p += 3 )`, from `p = 0`. -/
def fillIndices (indicesSize : Nat) (indices : List Nat) : Except Fault (List Nat) :=
  (fun st : Nat × List Nat => st.2) <$>
    (List.range (indicesSize - 2)).foldlM fillPass (0, indices)

/-- The method `Polygon::mergeRings`.  The exterior ring is dereferenced without a
check. -/
def mergeRings (p : Polygon) : Except Fault Polygon :=
  match p.exteriorRing with
  | none => .error .nullDereference
  | some ext =>
    let vertices := p.interiorRings.foldl (fun v r => v ++ r.vertices) (p.vertices ++ ext.vertices)
    let q : Polygon := { p.clearRings with vertices := vertices, indices := [] }
    if vertices.length < 3 then .ok q
    else
      let indicesSize : Int := toInt32 (3 * (vertices.length - 2))
      if indicesSize < 3 then .ok q
      else
        (fun idx => { q with indices := idx }) <$>
          fillIndices indicesSize.toNat (resize q.indices indicesSize.toNat 0)

/-- The method `Polygon::merge`: the result, `this` after the call and `*p` after the
call.  The argument is `none` for a NULL pointer; `this` and `p` are distinct
objects.  Index sums are `unsigned int` sums. -/
def merge (self : Polygon) (p : Option Polygon) : Bool × Polygon × Option Polygon :=
  match p with
  | none => (false, self, none)
  | some p =>
    if p.appearance ≠ self.appearance then (false, self, some p)
    else if p.vertices.length = 0 then (true, self, some p)
    else
      let oldVSize := self.vertices.length
      let pVSize := p.vertices.length
      let vertices :=
        copyLoop (fun a => a) TVec3d.zero p.vertices pVSize oldVSize
          (resize self.vertices (oldVSize + pVSize) TVec3d.zero)
      let indices :=
        copyLoop (fun k => (oldVSize + k) % 4294967296) 0 p.indices p.indices.length
          self.indices.length (resize self.indices (self.indices.length + p.indices.length) 0)
      let normals :=
        copyLoop (fun a => a) ⟨0, 0, 0⟩ p.normals p.normals.length self.normals.length
          (resize self.normals (self.normals.length + p.normals.length) ⟨0, 0, 0⟩)
      let oldSize := min self.texCoords.length oldVSize
      let pSize := min p.texCoords.length pVSize
      let texCoords :=
        copyLoop (fun a => a) ⟨0, 0⟩ p.texCoords pSize oldSize
          (resize self.texCoords (oldSize + pSize) ⟨0, 0⟩)
      (true,
        { self with
          vertices := vertices, indices := indices, normals := normals, texCoords := texCoords,
          id := self.id ++ "+" ++ p.id },
        some { p with vertices := [], indices := [], normals := [], texCoords := [] })

end Polygon

/-! ## AppearanceManager (the part the finalisation pass reads) -/

/-- The fields of `AppearanceManager`: the registered `Appearance*`, the map
from node identifier to `Appearance*`, the map from node identifier to
`TexCoords*` (`none` for a NULL pointer), and the pending identifier and
coordinates of the assignment protocol.  A `std::map` is an association list
read by its first matching key. -/
structure AppearanceManager where
  appearances : List Nat
  appearanceMap : List (String × Nat)
  texCoordsMap : List (String × Option TexCoords)
  lastId : String
  lastCoords : Option TexCoords

namespace AppearanceManager

/-- Modelled from the spec: `getAppearance( nodeid )` of the missing header
`citygml.h`, "lookup is by exact identifier match"; NULL when the identifier is
not bound. -/
def getAppearance (am : AppearanceManager) (nodeid : String) : Option Nat :=
  am.appearanceMap.lookup nodeid

/-- Modelled from the spec: `getTexCoords( nodeid, texCoords )` of the missing
header `citygml.h`: when coordinates are recorded for the identifier they are
copied into the output buffer and the call returns true; otherwise it returns
false and the buffer is left as it was. -/
def getTexCoords (am : AppearanceManager) (nodeid : String) (texCoords : TexCoords) :
    Bool × TexCoords :=
  match am.texCoordsMap.lookup nodeid with
  | some (some t) => (true, t)
  | _ => (false, texCoords)

end AppearanceManager

/-- The method `Polygon::finish( AppearanceManager&, Appearance* )`.  `geometryIds a` is
the identifier of the `Geometry` object alive at address `a`, read by
`_geometry->getId()`. -/
def Polygon.finishAppearance (p : Polygon) (am : AppearanceManager) (defAppearance : Option Nat)
    (geometryIds : Nat → Option String) : Except Fault Polygon :=
  let own := am.getTexCoords p.id p.texCoords
  let resolved : Except Fault TexCoords :=
    if own.1 then .ok own.2
    else
      match p.geometry.bind geometryIds with
      | none => .error .nullDereference
      | some gid => .ok (am.getTexCoords gid own.2).2
  resolved.map fun tc =>
    let appearance := am.getAppearance p.id
    { p with
      texCoords := resize tc p.vertices.length ⟨0, 0⟩
      appearance := if appearance.isNone then defAppearance else appearance }

/-! ## The greedy merge pass of `Geometry::finish` and `CityObject::finish` -/

/-- The body of the inner loop at `( i, j )`: when `xs[i]->merge( xs[j] )`
succeeds, `xs[j]` is destroyed and erased; `none` when the merge fails (the
`continue`). -/
def mergeAt {α : Type} (merge : α → Option α → Bool × α × Option α) (xs : List α) (i j : Nat) :
    Option (List α) :=
  match xs[i]?, xs[j]? with
  | some a, some b =>
    match merge a (some b) with
    | (true, a1, _) => some ((xs.set i a1).eraseIdx j)
    | (false, _, _) => none
  | _, _ => none

/-- One run of the two nested `for` loops
`for ( i = 0; finish && i < size - iSub; i++ )
   for ( j = i + 1; finish && j < size - jSub; j++ )`:
the collection after the first successful merge, which clears `finish` and so
leaves both loops; `none` when no merge succeeds. -/
def mergeScan {α : Type} (merge : α → Option α → Bool × α × Option α) (iSub jSub : Nat)
    (xs : List α) : Option (List α) :=
  (List.range (xs.length - iSub)).findSome? fun i =>
    (List.range' (i + 1) (xs.length - jSub - (i + 1))).findSome? fun j => mergeAt merge xs i j

/-- The loop `while ( !finish && optimize )` for `optimize = true`: run the scan
again after every successful merge, stop after a scan without one. -/
def mergeLoop {α : Type} (merge : α → Option α → Bool × α × Option α) (iSub jSub : Nat)
    (xs : List α) : List α :=
  match h : mergeScan merge iSub jSub xs with
  | none => xs
  | some ys => mergeLoop merge iSub jSub ys
termination_by xs.length
decreasing_by
  obtain ⟨i, _, hi⟩ := List.exists_of_findSome?_eq_some h
  obtain ⟨j, hj, hij⟩ := List.exists_of_findSome?_eq_some hi
  have hjlt : j < xs.length := by
    have hmem := List.mem_range'_1.mp hj
    omega
  unfold mergeAt at hij
  split at hij
  · split at hij
    · cases hij
      simp [List.length_eraseIdx, hjlt]
      omega
    · cases hij
  · cases hij

/-! ## Geometry -/

/-- The fields of `Geometry`; `addr` is the address of the object (`this`),
`type` the geometry-type tag. -/
structure Geometry where
  addr : Nat
  id : String
  lod : Nat
  type : Nat
  polygons : List Polygon
deriving DecidableEq

namespace Geometry

/-- The method `Geometry::addPolygon`. -/
def addPolygon (g : Geometry) (p : Polygon) : Geometry :=
  { g with polygons := g.polygons ++ [{ p with geometry := some g.addr }] }

/-- The method `Geometry::finish`. -/
def finish (g : Geometry) (am : AppearanceManager) (defAppearance : Option Nat) (optimize : Bool)
    (geometryIds : Nat → Option String) : Except Fault Geometry :=
  let myappearance := am.getAppearance g.id
  (g.polygons.mapM fun (p : Polygon) =>
      p.finishAppearance am (if myappearance.isSome then myappearance else defAppearance)
        geometryIds).map fun ps =>
    { g with polygons := if optimize then mergeLoop Polygon.merge 1 1 ps else ps }

/-- The method `Geometry::merge`: the result, `this` after the call and `*g` after the
call; `this` and `g` are distinct objects. -/
def merge (self : Geometry) (g : Option Geometry) : Bool × Geometry × Option Geometry :=
  match g with
  | none => (false, self, none)
  | some g =>
    if g.lod ≠ self.lod ∨ g.type ≠ self.type then (false, self, some g)
    else
      (true,
        { self with
          polygons := g.polygons.foldl (fun ps q => ps ++ [q]) self.polygons
          id := self.id ++ "+" ++ g.id },
        some { g with polygons := [] })

end Geometry

/-! ## CityObject -/

/-- The fields of `CityObject`: identifier, type tag, envelope corners,
properties and geometries. -/
structure CityObject where
  id : String
  type : Nat
  envelope : TVec3d × TVec3d
  properties : List (String × String)
  geometries : List Geometry
deriving DecidableEq

/-- The method `CityObject::finish`. -/
def CityObject.finish (o : CityObject) (am : AppearanceManager) (optimize : Bool)
    (geometryIds : Nat → Option String) : Except Fault CityObject :=
  let myappearance := am.getAppearance o.id
  (o.geometries.mapM fun (g : Geometry) => g.finish am myappearance optimize geometryIds).map fun gs =>
    { o with geometries := if optimize then mergeLoop Geometry.merge 2 1 gs else gs }

/-! ## Type-mask utilities

A `std::string` is a list of characters, `std::string::npos` is `none`. -/

/-- The call `std::string::find_first_not_of( delimiters, pos )`. -/
def findFirstNotOf (str delimiters : List Char) (pos : Option Nat) : Option Nat :=
  pos.bind fun p =>
    (List.range' p (str.length - p)).find? fun i => !delimiters.contains (str.getD i ' ')

/-- The call `std::string::find_first_of( delimiters, pos )`. -/
def findFirstOf (str delimiters : List Char) (pos : Option Nat) : Option Nat :=
  pos.bind fun p =>
    (List.range' p (str.length - p)).find? fun i => delimiters.contains (str.getD i ' ')

/-- The call `str.substr( lastPos, pos - lastPos )`; with `pos = npos` the count exceeds
the string and the rest of the string is taken. -/
def substr (str : List Char) (lastPos : Nat) (pos : Option Nat) : List Char :=
  match pos with
  | none => str.drop lastPos
  | some p => (str.drop lastPos).take (p - lastPos)

/-- The `while` loop of `tokenize`, run for at most `fuel` passes; `none` when
the passes run out or `substr` is called at `npos` (which throws). -/
def tokenizeLoop (str delimiters : List Char) :
    Nat → Option Nat → Option Nat → List (List Char) → Option (List (List Char))
  | fuel, lastPos, pos, tokens =>
    if pos.isNone ∧ lastPos.isNone then some tokens
    else
      match fuel, lastPos with
      | 0, _ => none
      | _, none => none
      | fuel + 1, some lp =>
        let lastPos1 := findFirstNotOf str delimiters pos
        tokenizeLoop str delimiters fuel lastPos1 (findFirstOf str delimiters lastPos1)
          (tokens ++ [substr str lp pos])

/-- The function `tokenize( str, delimiters )`; the default value of `delimiters` is declared
in the missing header `citygml.h` and is a parameter here. -/
def tokenize (str delimiters : List Char) : Option (List (List Char)) :=
  let lastPos := findFirstNotOf str delimiters (some 0)
  tokenizeLoop str delimiters (str.length + 1) lastPos (findFirstOf str delimiters lastPos) []

/-- The function `caseInsensitiveStringCompare`. -/
def caseInsensitiveStringCompare (str1 str2 : List Char) : Bool :=
  str1.map Char.toLower == str2.map Char.toLower

/-- The arguments of the successive `COMPARECITYNAMEMASK( _t_ )` lines of
`getCityObjectsTypeMaskFromString`, in source order. -/
def comparedNames : List String :=
  ["GenericCityObject", "Building", "Room", "BuildingInstallation", "BuildingFurniture", "Door",
    "Window", "CityFurniture", "Track", "Road", "Railway", "Square", "PlantCover",
    "SolitaryVegetationObject", "WaterBody", "TINRelief", "LandUse", "Tunnel", "Bridge",
    "BridgeConstructionElement", "BridgeInstallation", "BridgePart", "GenericCityObject", "All"]

/-- The mask with the bits of `c` cleared, `mask & (~ c)` on 32 bits, for an
enumerator `c` below `2^32`. -/
def clearBits (mask c : Nat) : Nat := mask &&& (4294967295 ^^^ c)

/-- One expansion of the macro `COMPARECITYNAMEMASK( name )` on `tokens[i]`.
`COT name` is the enumerator `COT_name` of the missing header `citygml.h`. -/
def compareCityNameMask (COT : String → Nat) (token : List Char) (mask : Nat) (name : String) :
    Nat :=
  let neg : Bool := token.head? == some '~' || token.head? == some '!'
  if caseInsensitiveStringCompare name.toList (if neg then token.drop 1 else token) then
    if neg then clearBits mask (COT name) else mask ||| COT name
  else mask

/-- The function `getCityObjectsTypeMaskFromString`. -/
def getCityObjectsTypeMaskFromString (COT : String → Nat) (delimiters stringMask : List Char) :
    Option Nat :=
  (tokenize stringMask delimiters).map fun tokens =>
    tokens.foldl
      (fun mask token =>
        if token.length = 0 then mask
        else comparedNames.foldl (compareCityNameMask COT token) mask)
      0

/-! ### The grammar as the specification words it -/

/-- The type names of the grammar, `All` included. -/
def specTypeNames : List String :=
  ["GenericCityObject", "Building", "Room", "BuildingInstallation", "BuildingFurniture", "Door",
    "Window", "CityFurniture", "Track", "Road", "Railway", "Square", "PlantCover",
    "SolitaryVegetationObject", "WaterBody", "TINRelief", "LandUse", "Tunnel", "Bridge",
    "BridgeConstructionElement", "BridgeInstallation", "BridgePart", "All"]

/-- The delimiter-separated tokens of a string: its maximal runs of characters
that are not delimiters. -/
def specTokens (delimiters s : List Char) : List (List Char) :=
  (s.splitOnP fun c => delimiters.contains c).filter fun t => !t.isEmpty

/-- The type name a word stands for, compared without regard to case. -/
def specTypeName (word : List Char) : Option String :=
  specTypeNames.find? fun n => n.toList.map Char.toLower == word.map Char.toLower

/-- The effect of one token on the mask: a type name sets its bits, a type name
prefixed by `~` or `!` clears them, any other token leaves the mask as it is. -/
def specApplyToken (COT : String → Nat) (mask : Nat) (token : List Char) : Nat :=
  match token with
  | [] => mask
  | c :: rest =>
    if c = '~' ∨ c = '!' then
      match specTypeName rest with
      | some n => clearBits mask (COT n)
      | none => mask
    else
      match specTypeName token with
      | some n => mask ||| COT n
      | none => mask

/-- The mask of a string: the left-to-right fold of its tokens from the empty
mask. -/
def specTypeMask (COT : String → Nat) (delimiters s : List Char) : Nat :=
  (specTokens delimiters s).foldl (specApplyToken COT) 0

/-! ## Helper definitions of the proofs -/

/-- The lower-cased spelling by which a type name is compared. -/
def nameKey (n : String) : List Char := n.toList.map Char.toLower

/-- The change a matching type name makes to the mask: clear its bits when the
token is negated, set them otherwise. -/
def applyName (COT : String → Nat) (neg : Bool) (mask : Nat) (n : String) : Nat :=
  if neg then clearBits mask (COT n) else mask ||| COT n

/-! ## AppearanceManager: the assignment protocol -/

namespace AppearanceManager

/-- The method `AppearanceManager::addAppearance`; `none` is a NULL pointer. -/
def addAppearance (am : AppearanceManager) (app : Option Nat) : AppearanceManager :=
  match app with
  | some a => { am with appearances := am.appearances ++ [a] }
  | none => am

/-- The method `AppearanceManager::assignTexCoords`: the result and the manager
after the call.  An assignment `map[ key ] = value` puts the pair in front of
the association list, where the look-up finds it first. -/
def assignTexCoords (am : AppearanceManager) (tex : Option TexCoords) :
    Bool × AppearanceManager :=
  let am1 := { am with lastCoords := tex }
  if am1.lastId = "" then (false, am1)
  else
    (true,
      { am1 with
        texCoordsMap := (am1.lastId, tex) :: am1.texCoordsMap, lastCoords := none, lastId := "" })

/-- The method `AppearanceManager::assignNode`.  The read
`_appearances[ _appearances.size() - 1 ]` is past the end when no appearance
is registered. -/
def assignNode (am : AppearanceManager) (nodeid : String) : Except Fault AppearanceManager :=
  let am1 := { am with lastId := nodeid }
  if (am1.getAppearance nodeid).isNone then
    match am1.appearances.getLast? with
    | none => .error .outOfBounds
    | some a =>
      let am2 := { am1 with appearanceMap := (nodeid, a) :: am1.appearanceMap }
      if am2.lastCoords.isSome then
        .ok { (am2.assignTexCoords am2.lastCoords).2 with lastId := "" }
      else .ok am2
  else .ok { am1 with lastId := "" }

end AppearanceManager

/-- A call of the assignment protocol with its argument. -/
inductive ManagerCall where
  | addAppearance (app : Option Nat)
  | assignNode (nodeid : String)
  | assignTexCoords (tex : Option TexCoords)

/-- The manager after one call of the protocol. -/
def AppearanceManager.call (am : AppearanceManager) : ManagerCall → Except Fault AppearanceManager
  | .addAppearance app => .ok (am.addAppearance app)
  | .assignNode nodeid => am.assignNode nodeid
  | .assignTexCoords tex => .ok (am.assignTexCoords tex).2

/-- The manager after a sequence of calls, in order. -/
def AppearanceManager.run (am : AppearanceManager) (calls : List ManagerCall) :
    Except Fault AppearanceManager :=
  calls.foldlM AppearanceManager.call am

/-! ## Tesselator -/

/-- The OpenGL enumerator `GL_TRIANGLES` of `GL/gl.h`. -/
def GL_TRIANGLES : Nat := 4

/-- The OpenGL enumerator `GL_TRIANGLE_STRIP` of `GL/gl.h`. -/
def GL_TRIANGLE_STRIP : Nat := 5

/-- The OpenGL enumerator `GL_TRIANGLE_FAN` of `GL/gl.h`. -/
def GL_TRIANGLE_FAN : Nat := 6

/-- The fields of `Tesselator`, and what the GLU object `_tobj` was given since
`gluTessBeginPolygon`: the normal and the contours, each vertex with the index
passed as its data. -/
structure Tesselator where
  curMode : Nat
  vertices : List TVec3d
  indices : List Nat
  curIndices : List Nat
  gluNormal : TVec3d
  gluContours : List (List (Nat × TVec3d))

/-- A callback the GLU library makes during `gluTessEndPolygon`. -/
inductive GluEvent where
  | begin (which : Nat)
  | vertex (data : Nat)
  | combine (coords : TVec3d)
  | endPrimitive
  | error (errorCode : Nat)

namespace Tesselator

/-- The method `Tesselator::init`. -/
def init (t : Tesselator) (_verticesCount : Nat) (normal : TVec3d) : Tesselator :=
  { t with vertices := [], indices := [], curIndices := [], gluNormal := normal, gluContours := [] }

/-- The method `Tesselator::addContour`. -/
def addContour (t : Tesselator) (pts : List TVec3d) : Tesselator :=
  if pts.length < 3 then t
  else
    { t with
      vertices := t.vertices ++ pts
      gluContours := t.gluContours ++ [(List.range' t.vertices.length pts.length).zip pts] }

/-- The callback `Tesselator::beginCallback`. -/
def beginCallback (t : Tesselator) (which : Nat) : Tesselator := { t with curMode := which }

/-- The callback `Tesselator::vertexCallback`. -/
def vertexCallback (t : Tesselator) (data : Nat) : Tesselator :=
  { t with curIndices := t.curIndices ++ [data] }

/-- The callback `Tesselator::combineCallback`; the index of the new vertex goes
back to the library. -/
def combineCallback (t : Tesselator) (coords : TVec3d) : Tesselator :=
  { t with vertices := t.vertices ++ [coords] }

/-- One pass of the `for` loop of the fan/strip case of `endCallback`, on the
triple of `first`, `prev` and the index buffer. -/
def expandStep (curMode : Nat) (curIndices : List Nat) (st : Nat × Nat × List Nat) (i : Nat) :
    Nat × Nat × List Nat :=
  let first := st.1
  let prev := st.2.1
  let indices := st.2.2
  let indices := if curMode = GL_TRIANGLE_FAN ∨ i % 2 = 0 then indices ++ [first] else indices
  let indices := indices ++ [prev]
  let indices := if curMode = GL_TRIANGLE_STRIP ∧ i % 2 = 1 then indices ++ [first] else indices
  let first := if curMode = GL_TRIANGLE_STRIP then prev else first
  let prev := curIndices.getD i 0
  (first, prev, indices ++ [prev])

/-- The callback `Tesselator::endCallback`.  The reads `_curIndices[0]` and
`_curIndices[1]` of the fan/strip case are past the end of a batch of fewer
than two indices. -/
def endCallback (t : Tesselator) : Except Fault Tesselator :=
  let len := t.curIndices.length
  if t.curMode = GL_TRIANGLES then
    .ok
      { t with
        indices := (List.range len).foldl (fun acc i => acc ++ [t.curIndices.getD i 0]) t.indices
        curIndices := [] }
  else if t.curMode = GL_TRIANGLE_FAN ∨ t.curMode = GL_TRIANGLE_STRIP then
    match t.curIndices with
    | first :: prev :: _ =>
      .ok
        { t with
          indices :=
            ((List.range' 2 (len - 2)).foldl (expandStep t.curMode t.curIndices)
              (first, prev, t.indices)).2.2
          curIndices := [] }
    | _ => .error .outOfBounds
  else .ok { t with curIndices := [] }

/-- The callback `Tesselator::errorCallback`: a message, no change of state. -/
def errorCallback (t : Tesselator) (_errorCode : Nat) : Tesselator := t

/-- The callback a library event reaches. -/
def dispatch (t : Tesselator) : GluEvent → Except Fault Tesselator
  | .begin which => .ok (t.beginCallback which)
  | .vertex data => .ok (t.vertexCallback data)
  | .combine coords => .ok (t.combineCallback coords)
  | .endPrimitive => t.endCallback
  | .error errorCode => .ok (t.errorCallback errorCode)

/-- The method `Tesselator::compute`.  The GLU library is the parameter `glu`:
the callbacks it makes for a normal and a list of contours. -/
def compute (glu : TVec3d → List (List (Nat × TVec3d)) → List GluEvent) (t : Tesselator) :
    Except Fault Tesselator :=
  (glu t.gluNormal t.gluContours).foldlM dispatch t

end Tesselator

/-! ## Polygon: normal, tessellation and the first finalisation step -/

/-- The conversion `TVec3f( (float)n.x, (float)n.y, (float)n.z )`: every
component is rounded to the nearest `float` (the components of a normal lie
within the range of `float`). -/
def TVec3f.ofDouble (n : TVec3d) : TVec3f := ⟨roundFloat n.x, roundFloat n.y, roundFloat n.z⟩

namespace Polygon

/-- The method `Polygon::computeNormal`, compiled without `TESSNORMALS`. -/
def computeNormal (normal : TVec3d → TVec3d) (p : Polygon) : TVec3d :=
  match p.exteriorRing with
  | none => TVec3d.zero
  | some ext =>
    let n := ext.computeNormal normal
    if p.negNormal then n.neg else n

/-- The method `Polygon::tesselate` on the polygon and the shared tessellator
instance. -/
def tesselate (glu : TVec3d → List (List (Nat × TVec3d)) → List GluEvent) (tess : Tesselator)
    (normal : TVec3d) (p : Polygon) : Except Fault (Polygon × Tesselator) :=
  let p0 : Polygon := { p with indices := [] }
  let fallback : Except Fault (Polygon × Tesselator) := p0.mergeRings.map fun q => (q, tess)
  match p0.exteriorRing with
  | none => fallback
  | some ext =>
    if ext.size < 3 then fallback
    else
      let vsize := p0.interiorRings.foldl (fun n r => n + r.size) ext.size
      let t1 := (tess.init vsize normal).addContour ext.vertices
      let t2 := p0.interiorRings.foldl (fun t r => t.addContour r.vertices) t1
      (t2.compute glu).map fun t3 =>
        ({ p0 with
            vertices := p0.vertices ++ t3.vertices
            indices := if t3.indices.length > 0 then t3.indices else p0.indices }.clearRings,
          t3)

/-- The loop `for ( i = 0; i < _vertices.size(); i++ ) _normals[i] = n` of
`Polygon::finish`. -/
def fillNormals (normals : List TVec3f) (count : Nat) (n : TVec3f) : List TVec3f :=
  (List.range count).foldl (fun acc i => acc.set i n) normals

/-- The method `Polygon::finish( bool doTesselate )`, compiled without
`TESSNORMALS`. -/
def finish (normal : TVec3d → TVec3d)
    (glu : TVec3d → List (List (Nat × TVec3d)) → List GluEvent) (tess : Tesselator)
    (doTesselate : Bool) (p : Polygon) : Except Fault (Polygon × Tesselator) :=
  let n := p.computeNormal normal
  (if doTesselate then p.tesselate glu tess n
    else p.mergeRings.map fun q => (q, tess)).map fun r =>
    ({ r.1 with
        normals :=
          fillNormals (resize r.1.normals r.1.vertices.length ⟨0, 0, 0⟩) r.1.vertices.length
            (TVec3f.ofDouble n) },
      r.2)

/-- The finalised-polygon invariant: every index is a position of the vertex
buffer, the index count is a multiple of three, and there is one normal per
vertex. -/
def Finalized (p : Polygon) : Prop :=
  (∀ k ∈ p.indices, k < p.vertices.length) ∧ p.indices.length % 3 = 0 ∧
    p.normals.length = p.vertices.length

instance (p : Polygon) : Decidable p.Finalized := by
  unfold Finalized
  infer_instance

end Polygon

/-- The polygon after `Polygon::finish( AppearanceManager&, Appearance* )` when
its back pointer leads to a geometry with identifier `gid`. -/
def Polygon.resolved (am : AppearanceManager) (defAppearance : Option Nat) (gid : String)
    (p : Polygon) : Polygon :=
  { p with
    texCoords :=
      resize
        (if (am.getTexCoords p.id p.texCoords).1 then (am.getTexCoords p.id p.texCoords).2
          else (am.getTexCoords gid (am.getTexCoords p.id p.texCoords).2).2)
        p.vertices.length ⟨0, 0⟩
    appearance := if (am.getAppearance p.id).isNone then defAppearance else am.getAppearance p.id }

/-! ## Owner references and vertex totals -/

/-- The owner invariant of a geometry: the `_geometry` pointer of every polygon
held in `_polygons` is the address of this geometry. -/
def Geometry.Owned (g : Geometry) : Prop := ∀ p ∈ g.polygons, p.geometry = some g.addr

instance (g : Geometry) : Decidable g.Owned := by
  unfold Geometry.Owned
  infer_instance

/-- The number of vertices summed over a collection of polygons. -/
def totalVertices (ps : List Polygon) : Nat := (ps.map fun p => p.vertices.length).sum

/-! ## Sample inputs -/

/-- A triangle ring without duplicate points. -/
def triangleRing : LinearRing :=
  { id := "r", vertices := [⟨0, 0, 0⟩, ⟨1, 0, 0⟩, ⟨1, 1, 0⟩], exterior := true }

/-- A ring of four points with `double` coordinates.  The exact squared
distance of its first two points is below `1e-8`, by about `3.1e-26`; computed
in `double` arithmetic it is the literal `0.00000001` itself. -/
def roundedUpRing : LinearRing :=
  { id := "r", exterior := true
    vertices :=
      [⟨0, 0, 0⟩, ⟨913605799847627 / 9223372036854775808, 63305528564107 / 4611686018427387904, 0⟩,
        ⟨1, 0, 0⟩, ⟨0, 1, 0⟩] }

/-- The unit square ring, counter-clockwise in the plane `z = 0`. -/
def squareRing : LinearRing :=
  { id := "r", vertices := [⟨0, 0, 0⟩, ⟨1, 0, 0⟩, ⟨1, 1, 0⟩, ⟨0, 1, 0⟩], exterior := true }

/-- A finalised triangle polygon with identifier `id`, owned by the geometry at
address 1, without appearance. -/
def samplePolygon (id : String) : Polygon :=
  { id := id, vertices := [⟨0, 0, 0⟩, ⟨1, 0, 0⟩, ⟨1, 1, 0⟩], normals := [], indices := [0, 1, 2],
    texCoords := [], appearance := none, exteriorRing := none, interiorRings := [],
    negNormal := false, geometry := some 1 }

/-- A polygon with a single vertex and no index. -/
def wrapA : Polygon :=
  { id := "a", vertices := [⟨0, 0, 0⟩], normals := [], indices := [], texCoords := [],
    appearance := none, exteriorRing := none, interiorRings := [], negNormal := false,
    geometry := none }

/-- A polygon before finalisation whose exterior ring is a triangle. -/
def trianglePolygon : Polygon :=
  { samplePolygon "t" with vertices := [], indices := [], exteriorRing := some triangleRing }

/-- A polygon before finalisation whose exterior ring is the unit square. -/
def quadPolygon : Polygon :=
  { samplePolygon "q" with vertices := [], indices := [], exteriorRing := some squareRing }

/-- An appearance manager with one appearance (at address 7) bound to the
identifier `g`. -/
def sampleManager : AppearanceManager :=
  { appearances := [7], appearanceMap := [("g", 7)], texCoordsMap := [], lastId := "",
    lastCoords := none }

/-- The geometry objects alive: `g` at address 1 and `h` at address 2. -/
def sampleIds : Nat → Option String := fun a =>
  if a = 1 then some "g" else if a = 2 then some "h" else none

/-- The polygon `samplePolygon id` once its appearance is resolved to the one
at address 7. -/
def resolvedPolygon (id : String) : Polygon :=
  { samplePolygon id with texCoords := [⟨0, 0⟩, ⟨0, 0⟩, ⟨0, 0⟩], appearance := some 7 }

/-- A geometry `g` holding two triangle polygons `a` and `b`. -/
def twoPolygons : Geometry :=
  { addr := 1, id := "g", lod := 2, type := 0, polygons := [samplePolygon "a", samplePolygon "b"] }

/-- A geometry of level of detail 2 and type 0 with one polygon. -/
def sampleGeometry (addr : Nat) (id : String) : Geometry :=
  { addr := addr, id := id, lod := 2, type := 0,
    polygons := [{ samplePolygon "p" with geometry := some addr }] }

/-- A city object holding two geometries of the same level of detail and
type. -/
def twoGeometries : CityObject :=
  { id := "o", type := 2, envelope := (⟨0, 0, 0⟩, ⟨1, 1, 0⟩), properties := [],
    geometries := [sampleGeometry 1 "g", sampleGeometry 2 "h"] }

/-- A sample enumeration: one bit per type name in the order of the source,
the low 24 bits for `All`. -/
def sampleCOT (n : String) : Nat :=
  if n = "All" then 16777215 else 2 ^ comparedNames.indexOf n

/-- A manager on which nothing was called. -/
def emptyManager : AppearanceManager :=
  { appearances := [], appearanceMap := [], texCoordsMap := [], lastId := "", lastCoords := none }

/-- A polygon before finalisation without any ring. -/
def ringlessPolygon : Polygon := { samplePolygon "n" with vertices := [], indices := [] }

/-- A polygon before finalisation whose exterior ring has two points and whose
only interior ring is a triangle. -/
def shortExteriorPolygon : Polygon :=
  { ringlessPolygon with
    exteriorRing := some { id := "e", vertices := [⟨0, 0, 0⟩, ⟨1, 0, 0⟩], exterior := true }
    interiorRings := [{ triangleRing with exterior := false }] }

/-- A tessellator holding the pending strip batch `0, 1, 2, 3`. -/
def stripTesselator : Tesselator :=
  { curMode := GL_TRIANGLE_STRIP, vertices := [], indices := [], curIndices := [0, 1, 2, 3],
    gluNormal := TVec3d.zero, gluContours := [] }

/-- A finalised triangle polygon with one normal and one texture coordinate per
vertex. -/
def finalizedPolygon (id : String) : Polygon :=
  { samplePolygon id with
    normals := [⟨0, 0, 1⟩, ⟨0, 0, 1⟩, ⟨0, 0, 1⟩], texCoords := [⟨0, 0⟩, ⟨1, 0⟩, ⟨1, 1⟩] }

/-- A polygon with one vertex and no texture coordinate. -/
def untexturedPolygon : Polygon := { wrapA with id := "a" }

/-- A polygon with one vertex and its texture coordinate. -/
def texturedPolygon : Polygon := { wrapA with id := "b", texCoords := [⟨1, 1⟩] }

/-- A geometry `g` holding three triangle polygons `a`, `b` and `c` without
appearance. -/
def threePolygons : Geometry :=
  { addr := 1, id := "g", lod := 2, type := 0,
    polygons := [samplePolygon "a", samplePolygon "b", samplePolygon "c"] }

/-! # Theorems -/

/-! ## Rounding -/

/-- The `double` literal `0.00000001` is `3022314549036573 / 2 ^ 78`, a little
above `1e-8`; `1 / 3` as a `double`; `0.1` narrowed to `float`. -/
theorem roundDouble_values :
    roundDouble (1 / 100000000) = 3022314549036573 / 302231454903657293676544 ∧
      (1 : ℚ) / 100000000 < roundDouble (1 / 100000000) ∧
      roundDouble (1 / 3) = 6004799503160661 / 18014398509481984 ∧
      roundFloat (1 / 10) = 13421773 / 134217728 ∧
      roundDouble 1 = 1 ∧ roundDouble 0 = 0 ∧ roundDouble (-1 / 3) = -roundDouble (1 / 3) := by
  decide!

/-! ## LinearRing.finish -/

namespace LinearRing

theorem firstDuplicate_eq_none_iff (v : List TVec3d) : firstDuplicate v = none ↔ Clean v := by
  unfold firstDuplicate Clean nearDuplicate
  simp [List.find?_eq_none]

theorem finishVertices_eq_self_of_clean (v : List TVec3d) (h : Clean v) :
    finishVertices v = v := by
  rw [finishVertices]
  split
  · rfl
  · have hnone := (firstDuplicate_eq_none_iff v).2 h
    split
    · rfl
    · rename_i i hi
      rw [hnone] at hi
      cases hi

theorem finishVertices_short_or_clean (v : List TVec3d) :
    (finishVertices v).length < 2 ∨ Clean (finishVertices v) := by
  induction v using finishVertices.induct with
  | case1 v h => rw [finishVertices]; simp [h]
  | case2 v h hn =>
    rw [finishVertices]; simp only [h, if_false]
    right
    split
    · exact (firstDuplicate_eq_none_iff v).1 hn
    · rename_i i hi
      rw [hn] at hi; cases hi
  | case3 v h i hi ih =>
    rw [finishVertices]; simp only [h, if_false]
    split
    · rename_i hn
      rw [hn] at hi; cases hi
    · rename_i j hj
      rw [hi] at hj
      cases hj
      exact ih

theorem finishVertices_of_firstDuplicate_none (v : List TVec3d) (h : firstDuplicate v = none) :
    finishVertices v = v :=
  finishVertices_eq_self_of_clean v ((firstDuplicate_eq_none_iff v).1 h)

/-- C7, amended. After `finish` a ring either has fewer than two points or no
point is an epsilon-duplicate of its cyclic successor by the test of the code:
for every index `i` the squared distance between point `i` and point
`(i + 1) % len`, computed in `double` arithmetic, is not below the `double`
literal `0.00000001`. -/
theorem finish_no_adjacent_duplicates (r : LinearRing) :
    r.finish.size < 2 ∨
      ∀ i, i < r.finish.size →
        ¬ ((r.finish.vertices.getD i TVec3d.zero).subDouble
            (r.finish.vertices.getD ((i + 1) % r.finish.size) TVec3d.zero)).sqrLengthDouble
          < roundDouble (1 / 100000000) :=
  finishVertices_short_or_clean r.vertices

/-- C7, the claim as stated fails. The points of `roundedUpRing` have `double`
coordinates; `finish` leaves its four points as they are, and the exact squared
distance between point 0 and point 1 is below `1e-8`: computed in `double`
arithmetic it is the literal `0.00000001`, which the test does not find
below itself. -/
theorem finish_keeps_exact_duplicate :
    (∀ p ∈ roundedUpRing.vertices, p.IsDouble) ∧
      roundedUpRing.finish = roundedUpRing ∧ roundedUpRing.finish.size = 4 ∧
      ((roundedUpRing.finish.vertices.getD 0 TVec3d.zero).sub
          (roundedUpRing.finish.vertices.getD ((0 + 1) % roundedUpRing.finish.size)
            TVec3d.zero)).sqrLength
        < 1 / 100000000 ∧
      ((roundedUpRing.vertices.getD 0 TVec3d.zero).subDouble
          (roundedUpRing.vertices.getD 1 TVec3d.zero)).sqrLengthDouble
        = roundDouble (1 / 100000000) := by
  have hd : ∀ p ∈ roundedUpRing.vertices, p.IsDouble := by
    unfold TVec3d.IsDouble
    decide!
  have hnone : firstDuplicate roundedUpRing.vertices = none := by decide!
  have hfin : roundedUpRing.finish = roundedUpRing := by
    unfold finish
    rw [finishVertices_of_firstDuplicate_none _ hnone]
  refine ⟨hd, hfin, ?_, ?_, by decide!⟩
  · rw [hfin]
    rfl
  · rw [hfin]
    decide!

theorem getD_reverse_of_lt {α : Type} (v : List α) (d : α) (i : Nat) (h : i < v.length) :
    v.reverse.getD i d = v.getD (v.length - 1 - i) d := by
  simp only [List.getD_eq_getElem?_getD]
  rw [List.getElem?_reverse h]

/-- A cyclic edge sum of an antisymmetric term changes sign when the list is
reversed. -/
theorem cyclic_sum_reverse {α : Type} (g : α → α → ℚ) (hg : ∀ a b, g a b = - g b a)
    (v : List α) (d : α) :
    ∑ i in Finset.range v.length, g (v.reverse.getD i d) (v.reverse.getD ((i + 1) % v.length) d)
      = - ∑ i in Finset.range v.length, g (v.getD i d) (v.getD ((i + 1) % v.length) d) := by
  rcases Nat.eq_zero_or_pos v.length with h0 | hpos
  · simp [h0]
  · obtain ⟨m, hm⟩ : ∃ m, v.length = m + 1 := ⟨v.length - 1, by omega⟩
    rw [hm, Finset.sum_range_succ, Finset.sum_range_succ, neg_add]
    congr 1
    · have hL : ∀ i ∈ Finset.range m,
          g (v.reverse.getD i d) (v.reverse.getD ((i + 1) % (m + 1)) d)
            = - g (v.getD (m - 1 - i) d) (v.getD (m - 1 - i + 1) d) := by
        intro i hi
        have hi : i < m := Finset.mem_range.mp hi
        rw [Nat.mod_eq_of_lt (by omega), getD_reverse_of_lt v d _ (by omega),
          getD_reverse_of_lt v d _ (by omega), hg]
        have e1 : v.length - 1 - i = m - 1 - i + 1 := by omega
        have e2 : v.length - 1 - (i + 1) = m - 1 - i := by omega
        rw [e1, e2]
      have hR : ∀ i ∈ Finset.range m,
          g (v.getD i d) (v.getD ((i + 1) % (m + 1)) d) = g (v.getD i d) (v.getD (i + 1) d) := by
        intro i hi
        have hi : i < m := Finset.mem_range.mp hi
        rw [Nat.mod_eq_of_lt (by omega)]
      rw [Finset.sum_congr rfl hL, Finset.sum_congr rfl hR, Finset.sum_neg_distrib,
        Finset.sum_range_reflect (fun j => g (v.getD j d) (v.getD (j + 1) d)) m]
    · rw [Nat.mod_self, getD_reverse_of_lt v d _ (by omega), getD_reverse_of_lt v d _ (by omega),
        hg]
      have e1 : v.length - 1 - m = 0 := by omega
      have e2 : v.length - 1 - 0 = m := by omega
      rw [e1, e2]

theorem foldl_newellStep (v : List TVec3d) (len : Nat) (a : TVec3d) (n : Nat) :
    (List.range n).foldl (newellStep v len) a =
      { x := a.x + ∑ i in Finset.range n,
          ((v.getD i TVec3d.zero).y - (v.getD ((i + 1) % len) TVec3d.zero).y) *
            ((v.getD i TVec3d.zero).z + (v.getD ((i + 1) % len) TVec3d.zero).z)
        y := a.y + ∑ i in Finset.range n,
          ((v.getD i TVec3d.zero).z - (v.getD ((i + 1) % len) TVec3d.zero).z) *
            ((v.getD i TVec3d.zero).x + (v.getD ((i + 1) % len) TVec3d.zero).x)
        z := a.z + ∑ i in Finset.range n,
          ((v.getD i TVec3d.zero).x - (v.getD ((i + 1) % len) TVec3d.zero).x) *
            ((v.getD i TVec3d.zero).y + (v.getD ((i + 1) % len) TVec3d.zero).y) } := by
  induction n with
  | zero => simp
  | succ n ih =>
    rw [List.range_succ, List.foldl_append, ih]
    simp only [List.foldl_cons, List.foldl_nil, newellStep, Finset.sum_range_succ, add_assoc]

theorem newellAccumulator_reversed (r : LinearRing) :
    r.reversed.newellAccumulator = r.newellAccumulator.neg := by
  unfold newellAccumulator reversed size
  simp only [List.length_reverse]
  rw [foldl_newellStep, foldl_newellStep]
  simp only [TVec3d.neg, zero_add]
  congr 1
  · exact cyclic_sum_reverse (fun (a b : TVec3d) => (a.y - b.y) * (a.z + b.z))
      (fun a b => by ring) _ _
  · exact cyclic_sum_reverse (fun (a b : TVec3d) => (a.z - b.z) * (a.x + b.x))
      (fun a b => by ring) _ _
  · exact cyclic_sum_reverse (fun (a b : TVec3d) => (a.x - b.x) * (a.y + b.y))
      (fun a b => by ring) _ _

theorem normal_neg (sqrt : ℚ → ℚ) (v : TVec3d) :
    TVec3d.normal sqrt v.neg = (TVec3d.normal sqrt v).neg := by
  have hlen : v.neg.sqrLength = v.sqrLength := by
    simp only [TVec3d.neg, TVec3d.sqrLength]; ring
  unfold TVec3d.normal
  rw [hlen]
  simp only [TVec3d.neg, neg_mul]

/-- C9. For a ring with at least three points the Newell accumulator of the
reversed ring is the component-wise negation of the accumulator of the ring;
hence `computeNormal` of the reversed ring is the normalisation of the negated
accumulator, which is the negated normal for every normalisation that commutes
with negation, in particular for scaling by the inverse length.  For a ring
with fewer than three points `computeNormal` returns the zero vector. -/
theorem computeNormal_reversed (r : LinearRing) (normal : TVec3d → TVec3d) :
    (3 ≤ r.size →
      r.reversed.newellAccumulator = r.newellAccumulator.neg ∧
      r.reversed.computeNormal normal = normal r.newellAccumulator.neg ∧
      ((∀ v, normal v.neg = (normal v).neg) →
        r.reversed.computeNormal normal = (r.computeNormal normal).neg) ∧
      (∀ sqrt : ℚ → ℚ,
        r.reversed.computeNormal (TVec3d.normal sqrt)
          = (r.computeNormal (TVec3d.normal sqrt)).neg)) ∧
    (r.size < 3 → r.computeNormal normal = TVec3d.zero) := by
  constructor
  · intro h3
    have hnot : ¬ r.size < 3 := by omega
    have hrev : r.reversed.size = r.size := by simp [reversed, size]
    refine ⟨newellAccumulator_reversed r, ?_, ?_, ?_⟩
    · unfold computeNormal
      rw [hrev, if_neg hnot, newellAccumulator_reversed]
    · intro hodd
      unfold computeNormal
      rw [hrev, if_neg hnot, if_neg hnot, newellAccumulator_reversed, hodd]
    · intro sqrt
      unfold computeNormal
      rw [hrev, if_neg hnot, if_neg hnot, newellAccumulator_reversed, normal_neg]
  · intro h
    unfold computeNormal
    rw [if_pos h]

/-- The unit square: its accumulator is `(0, 0, 2)`, that of the reversed ring
`(0, 0, -2)`. -/
theorem computeNormal_reversed_witness :
    3 ≤ squareRing.size ∧ squareRing.newellAccumulator = ⟨0, 0, 2⟩ ∧
      squareRing.reversed.newellAccumulator = ⟨0, 0, -2⟩ := by
  have h := ((computeNormal_reversed squareRing fun v => v).1 (by decide)).1
  have hacc : squareRing.newellAccumulator = ⟨0, 0, 2⟩ := by
    norm_num [squareRing, LinearRing.newellAccumulator, LinearRing.size, List.range,
      List.range.loop, LinearRing.newellStep, TVec3d.zero]
  refine ⟨by decide, hacc, ?_⟩
  rw [h, hacc]
  norm_num [TVec3d.neg]

end LinearRing

/-! ## Buffers -/

theorem length_resize {α : Type} (l : List α) (n : Nat) (d : α) : (resize l n d).length = n := by
  simp [resize]; omega

theorem getElem?_resize {α : Type} (l : List α) (n : Nat) (d : α) (j : Nat) :
    (resize l n d)[j]? = if j < n then some (l.getD j d) else none := by
  unfold resize
  by_cases hj : j < n
  · simp only [hj, if_true]
    by_cases hl : j < l.length
    · rw [List.getElem?_append_left (by simp; omega)]
      simp [List.getElem?_take, hj, List.getD_eq_getElem?_getD, hl]
    · have ht : (l.take n).length = l.length := by simp; omega
      rw [List.getElem?_append_right (by omega), ht, List.getElem?_replicate,
        List.getD_eq_default _ _ (by omega), if_pos (by omega)]
  · simp only [hj, if_false]
    simp
    omega

theorem length_copyLoop {α β : Type} (f : α → β) (d : α) (src : List α) (n off : Nat)
    (dst : List β) : (copyLoop f d src n off dst).length = dst.length := by
  unfold copyLoop
  induction n with
  | zero => simp
  | succ n ih =>
    rw [List.range_succ, List.foldl_append]
    simp only [List.foldl_cons, List.foldl_nil, List.length_set]
    exact ih

theorem getElem?_copyLoop {α β : Type} (f : α → β) (d : α) (src : List α) (n off : Nat)
    (dst : List β) (j : Nat) :
    (copyLoop f d src n off dst)[j]? =
      if off ≤ j ∧ j < off + n ∧ j < dst.length then some (f (src.getD (j - off) d))
      else dst[j]? := by
  induction n with
  | zero =>
    have : ¬ (off ≤ j ∧ j < off + 0 ∧ j < dst.length) := by omega
    simp only [copyLoop, List.range_zero, List.foldl_nil, if_neg this]
  | succ n ih =>
    have hlen := length_copyLoop f d src n off dst
    unfold copyLoop at ih hlen ⊢
    rw [List.range_succ, List.foldl_append]
    simp only [List.foldl_cons, List.foldl_nil]
    rw [List.getElem?_set, hlen]
    by_cases hj : off + n = j
    · subst hj
      simp only [if_true, Nat.add_sub_cancel_left]
      by_cases hd : off + n < dst.length
      · rw [if_pos hd, if_pos (by omega)]
      · rw [if_neg hd, if_neg (by omega)]
        symm
        simp
        omega
    · simp only [hj, if_false]
      rw [ih]
      have : (j < off + (n + 1)) ↔ (j < off + n) := by omega
      simp only [this]

/-- A resize to `off + n` followed by the copy loop keeps the first `off`
entries and puts the first `n` source entries behind them. -/
theorem copyLoop_resize {α β : Type} (f : α → β) (d : α) (src : List α) (l : List β) (d1 : β)
    (n off : Nat) (hn : n ≤ src.length) (hoff : off ≤ l.length) :
    copyLoop f d src n off (resize l (off + n) d1) = l.take off ++ (src.take n).map f := by
  apply List.ext_getElem?
  intro j
  rw [getElem?_copyLoop, getElem?_resize, length_resize]
  by_cases h1 : j < off
  · have : ¬ (off ≤ j ∧ j < off + n ∧ j < off + n) := by omega
    rw [if_neg this, if_pos (by omega), List.getElem?_append_left (by simp; omega)]
    simp [List.getElem?_take, h1, List.getD_eq_getElem?_getD]
    have : j < l.length := by omega
    simp [this]
  · by_cases h2 : j < off + n
    · rw [if_pos (by omega), List.getElem?_append_right (by simp; omega)]
      simp [hoff]
      have h3 : j - off < n := by omega
      have h4 : j - off < src.length := by omega
      simp [List.getElem?_take, h3, h4, List.getD_eq_getElem?_getD]
    · rw [if_neg (by omega), if_neg h2]
      symm
      simp
      omega

theorem copyLoop_append {α β : Type} (f : α → β) (d : α) (src : List α) (l : List β) (d1 : β) :
    copyLoop f d src src.length l.length (resize l (l.length + src.length) d1)
      = l ++ src.map f := by
  rw [copyLoop_resize f d src l d1 _ _ (le_refl _) (le_refl _)]
  simp

/-! ## Polygon.merge -/

namespace Polygon

/-- Closed form of a merge that copies: same appearance, `other` not empty. -/
theorem merge_eq_of_vertices (A B : Polygon) (happ : B.appearance = A.appearance)
    (hne : B.vertices ≠ []) :
    A.merge (some B) =
      (true,
        { A with
          vertices := A.vertices ++ B.vertices
          indices := A.indices ++ B.indices.map fun k => (A.vertices.length + k) % 4294967296
          normals := A.normals ++ B.normals
          texCoords :=
            A.texCoords.take (min A.texCoords.length A.vertices.length) ++
              B.texCoords.take (min B.texCoords.length B.vertices.length)
          id := A.id ++ "+" ++ B.id },
        some { B with vertices := [], indices := [], normals := [], texCoords := [] }) := by
  have hlen : B.vertices.length ≠ 0 := by
    intro h; exact hne (List.length_eq_zero.mp h)
  unfold Polygon.merge
  simp only [happ, ne_eq, not_true_eq_false, if_false, hlen]
  rw [copyLoop_append, copyLoop_append, copyLoop_append,
    copyLoop_resize _ _ _ _ _ _ _ (Nat.min_le_left _ _) (Nat.min_le_left _ _)]
  simp

theorem merge_eq_of_no_vertices (A B : Polygon) (happ : B.appearance = A.appearance)
    (he : B.vertices = []) : A.merge (some B) = (true, A, some B) := by
  unfold Polygon.merge
  simp [happ, he]

/-- C1. For polygons `A` and `B` with the same resolved appearance, where
every index of `B` is below the vertex count of `B` and the two vertex counts
together fit `unsigned int`: if `B` has at least one vertex, `A.merge(B)`
returns true, `A.vertices` becomes `A.vertices ++ B.vertices`, `A.indices`
becomes `A.indices` followed by `k + len(A.vertices)` for each index `k` of
`B`, `A.id` becomes `A.id + "+" + B.id` and the vertex, index, normal and
texture-coordinate buffers of `B` are empty; if `B` has no vertex, it returns
true and changes nothing. -/
theorem merge_success (A B : Polygon) (happ : B.appearance = A.appearance)
    (hvalid : ∀ k ∈ B.indices, k < B.vertices.length)
    (hfit : A.vertices.length + B.vertices.length < 4294967296) :
    (B.vertices ≠ [] →
      (A.merge (some B)).1 = true ∧
      (A.merge (some B)).2.1.vertices = A.vertices ++ B.vertices ∧
      (A.merge (some B)).2.1.indices =
        A.indices ++ B.indices.map (fun k => k + A.vertices.length) ∧
      (A.merge (some B)).2.1.id = A.id ++ "+" ++ B.id ∧
      (A.merge (some B)).2.2 =
        some { B with vertices := [], indices := [], normals := [], texCoords := [] }) ∧
    (B.vertices = [] → A.merge (some B) = (true, A, some B)) := by
  constructor
  · intro hne
    rw [merge_eq_of_vertices A B happ hne]
    refine ⟨rfl, rfl, ?_, rfl, rfl⟩
    simp only []
    congr 1
    apply List.map_congr_left
    intro k hk
    have hk1 := hvalid k hk
    rw [Nat.mod_eq_of_lt (by omega), Nat.add_comm]
  · exact merge_eq_of_no_vertices A B happ

/-- Two triangles without appearance: the second one's indices `0, 1, 2` arrive
as `3, 4, 5`. -/
theorem merge_success_witness :
    (samplePolygon "b").appearance = (samplePolygon "a").appearance ∧
      ((samplePolygon "a").merge (some (samplePolygon "b"))).1 = true ∧
      ((samplePolygon "a").merge (some (samplePolygon "b"))).2.1.indices = [0, 1, 2, 3, 4, 5] ∧
      ((samplePolygon "a").merge (some (samplePolygon "b"))).2.1.id = "a+b" := by
  have h := (merge_success (samplePolygon "a") (samplePolygon "b") rfl (by decide)
    (by decide)).1 (by decide)
  exact ⟨rfl, h.1, h.2.2.1.trans (by decide), h.2.2.2.1.trans (by decide)⟩

/-- C2. The call `A.merge(B)` returns false exactly when `B` is null or the
resolved appearance of `B` is not that of `A`, and when it returns false `A`
and `B` are unchanged in every field. -/
theorem merge_false_iff (A : Polygon) (p : Option Polygon) :
    ((A.merge p).1 = false ↔ (p = none ∨ ∃ B, p = some B ∧ B.appearance ≠ A.appearance)) ∧
    ((A.merge p).1 = false → (A.merge p).2.1 = A ∧ (A.merge p).2.2 = p) := by
  cases p with
  | none => simp [Polygon.merge]
  | some B =>
    by_cases happ : B.appearance = A.appearance
    · by_cases he : B.vertices = []
      · rw [merge_eq_of_no_vertices A B happ he]; simp [happ]
      · rw [merge_eq_of_vertices A B happ he]; simp [happ]
    · simp [Polygon.merge, happ]

/-! ### mergeRings -/

/-- One pass of the outer loop inside the buffer. -/
theorem fillPass_ok (idx : List Nat) (p i : Nat) (h : p + 2 < idx.length) :
    ∃ idx1, idx1.length = idx.length ∧ fillPass (p, idx) i = .ok (p + 3, idx1) := by
  refine ⟨((idx.set (p + 0) (i + 0)).set (p + 1) (i + 1)).set (p + 2) (i + 2), by simp, ?_⟩
  have h0 : p + 0 < idx.length := by omega
  have h1 : p + 1 < (idx.set (p + 0) (i + 0)).length := by simp; omega
  have h2 : p + 2 < ((idx.set (p + 0) (i + 0)).set (p + 1) (i + 1)).length := by simp; omega
  simp only [fillPass, fillTriangle, List.range_succ, List.range_zero, List.nil_append,
    List.cons_append, List.foldlM_cons, List.foldlM_nil, writeAt, h0, h1, h2, if_true, bind,
    Except.bind, pure, Except.pure, Functor.map, Except.map]

/-- A pass that starts at the end of the buffer writes out of bounds. -/
theorem fillPass_out_of_bounds (idx : List Nat) (p i : Nat) (h : idx.length ≤ p) :
    fillPass (p, idx) i = .error .outOfBounds := by
  have h0 : ¬ (p + 0 < idx.length) := by omega
  simp only [fillPass, fillTriangle, List.range_succ, List.range_zero, List.nil_append,
    List.cons_append, List.foldlM_cons, writeAt, h0, if_false, bind,
    Except.bind, Functor.map, Except.map]

/-- The first `k` passes stay inside a buffer of at least `3 * k` entries. -/
theorem fillPass_prefix_ok (idx : List Nat) (k : Nat) (h : 3 * k ≤ idx.length) :
    ∃ idx1, idx1.length = idx.length ∧
      (List.range k).foldlM fillPass (0, idx) = .ok (3 * k, idx1) := by
  induction k with
  | zero => exact ⟨idx, rfl, rfl⟩
  | succ k ih =>
    obtain ⟨idx1, hlen, hk⟩ := ih (by omega)
    obtain ⟨idx2, hlen2, hpass⟩ := fillPass_ok idx1 (3 * k) k (by omega)
    refine ⟨idx2, hlen2.trans hlen, ?_⟩
    rw [List.range_succ, List.foldlM_append, hk]
    simp only [List.foldlM_cons, List.foldlM_nil, bind, Except.bind, pure, Except.pure]
    rw [hpass]
    rfl

/-- The loop of `mergeRings` on a buffer of `3 * m` entries, `m ≥ 2`, writes
past its end in pass `m`. -/
theorem fillIndices_out_of_bounds (idx : List Nat) (m : Nat) (hm : 2 ≤ m)
    (hlen : idx.length = 3 * m) : fillIndices (3 * m) idx = .error .outOfBounds := by
  obtain ⟨idx1, hlen1, hk⟩ := fillPass_prefix_ok idx m (by omega)
  obtain ⟨c, hc⟩ : ∃ c, 3 * m - 2 = m + (c + 1) := ⟨3 * m - 2 - m - 1, by omega⟩
  unfold fillIndices
  rw [hc, List.range_add, List.foldlM_append, hk, List.range_succ_eq_map]
  simp only [List.map_cons, List.foldlM_cons, bind, Except.bind, Nat.add_zero, Functor.map,
    Except.map]
  rw [fillPass_out_of_bounds idx1 (3 * m) m (by omega)]


theorem foldl_ring_vertices (rings : List LinearRing) (init : List TVec3d) :
    rings.foldl (fun v r => v ++ r.vertices) init
      = init ++ (rings.map LinearRing.vertices).flatten := by
  induction rings generalizing init with
  | nil => simp
  | cons r rings ih => simp [ih]

theorem toInt32_of_lt (n : Nat) (h : n < 2147483648) : toInt32 n = (n : Int) := by
  unfold toInt32
  have h1 : n % 4294967296 = n := Nat.mod_eq_of_lt (by omega)
  rw [h1, if_pos h]

/-- On a polygon with an exterior ring and four or more ring points in total
(and an index count within `int`) `mergeRings` writes past the end of the index
buffer. -/
theorem mergeRings_out_of_bounds (p : Polygon) (ext : LinearRing)
    (hext : p.exteriorRing = some ext) (n : Nat)
    (hn : (p.vertices ++ ext.vertices ++ (p.interiorRings.map LinearRing.vertices).flatten).length
      = n)
    (h4 : 4 ≤ n) (hint : 3 * (n - 2) < 2147483648) :
    p.mergeRings = .error .outOfBounds := by
  unfold mergeRings
  rw [hext]
  simp only [foldl_ring_vertices, hn]
  have h3 : ¬ n < 3 := by omega
  have hs : ¬ ((3 * (n - 2) : Nat) : Int) < 3 := by omega
  rw [if_neg h3, toInt32_of_lt _ hint, if_neg hs, Int.toNat_ofNat,
    fillIndices_out_of_bounds _ (n - 2) (by omega) (length_resize _ _ _)]
  rfl

/-- C3, at the failing input. On a polygon whose exterior ring is a triangle
`mergeRings` yields the indices `0, 1, 2`; on a polygon whose exterior ring is
the unit square (four points, empty vertex buffer) the index-filling loop
writes past the end of the six-entry index buffer, as it does for every
polygon with four or more ring points (`mergeRings_out_of_bounds`). -/
theorem mergeRings_quad_out_of_bounds :
    (trianglePolygon.mergeRings.toOption.map fun q => q.indices) = some [0, 1, 2] ∧
      quadPolygon.mergeRings = .error .outOfBounds := by
  constructor
  · rfl
  · rfl

end Polygon

/-! ## Geometry.merge -/

theorem foldl_push_back (ps qs : List Polygon) :
    qs.foldl (fun ps q => ps ++ [q]) ps = ps ++ qs := by
  induction qs generalizing ps with
  | nil => simp
  | cons q qs ih => simp [ih]

/-- C6. The call `A.merge(B)` returns true exactly when `B` is non-null and has
the level of detail and the type tag of `A`; on true the polygons of `A` are
its own followed by those of `B`, `B` holds no polygon and the identifier of
`A` is `A.id + "+" + B.id` (nothing else changes); on false `A` and `B` are
unchanged. -/
theorem Geometry.merge_true_iff (A : Geometry) (g : Option Geometry) :
    ((A.merge g).1 = true ↔ ∃ B, g = some B ∧ B.lod = A.lod ∧ B.type = A.type) ∧
    (∀ B, g = some B → (A.merge g).1 = true →
      A.merge g =
        (true, { A with polygons := A.polygons ++ B.polygons, id := A.id ++ "+" ++ B.id },
          some { B with polygons := [] })) ∧
    ((A.merge g).1 = false → (A.merge g).2.1 = A ∧ (A.merge g).2.2 = g) := by
  cases g with
  | none => simp [Geometry.merge]
  | some B =>
    by_cases h : B.lod ≠ A.lod ∨ B.type ≠ A.type
    · have h2 : ¬ (B.lod = A.lod ∧ B.type = A.type) := by tauto
      simp [Geometry.merge, h, h2]
    · have h2 : B.lod = A.lod ∧ B.type = A.type := by tauto
      simp [Geometry.merge, h2, foldl_push_back]

/-! ## The merge pass -/

theorem mergeLoop_of_scan_none {α : Type} (merge : α → Option α → Bool × α × Option α)
    (iSub jSub : Nat) (xs : List α) (h : mergeScan merge iSub jSub xs = none) :
    mergeLoop merge iSub jSub xs = xs := by
  rw [mergeLoop]
  split
  · rfl
  · rename_i ys hys
    rw [h] at hys
    cases hys

/-- With `j < size - 1` as the inner bound the scan of a two-element collection
tries no pair. -/
theorem mergeScan_pair {α : Type} (merge : α → Option α → Bool × α × Option α) (iSub : Nat)
    (a b : α) : mergeScan merge (iSub + 1) 1 [a, b] = none := by
  cases iSub <;> simp [mergeScan, List.range_succ]

theorem mergeScan_single {α : Type} (merge : α → Option α → Bool × α × Option α) (iSub : Nat)
    (a : α) : mergeScan merge (iSub + 1) 1 [a] = none := by
  simp [mergeScan]

/-- C4, at the failing input. The geometry `g` is bound to the appearance at
address 7 and holds the polygons `a` and `b`; after `finish` with
`optimize = true` both are resolved to that appearance, the merge of `a` with
`b` would succeed, and the geometry still holds both. -/
theorem Geometry.finish_keeps_mergeable_polygons :
    twoPolygons.finish sampleManager none true sampleIds =
        .ok { twoPolygons with polygons := [resolvedPolygon "a", resolvedPolygon "b"] } ∧
      (resolvedPolygon "a").appearance = (resolvedPolygon "b").appearance ∧
      ((resolvedPolygon "a").merge (some (resolvedPolygon "b"))).1 = true := by
  have hm : (twoPolygons.polygons.mapM fun (p : Polygon) =>
      p.finishAppearance sampleManager
        (if (sampleManager.getAppearance twoPolygons.id).isSome then
          sampleManager.getAppearance twoPolygons.id else none)
        sampleIds) = Except.ok [resolvedPolygon "a", resolvedPolygon "b"] := by rfl
  refine ⟨?_, rfl, by decide⟩
  unfold Geometry.finish
  simp only [hm, Except.map, if_true]
  rw [mergeLoop_of_scan_none Polygon.merge 1 1 _ (mergeScan_pair Polygon.merge 0 _ _)]

theorem sampleGeometry_finish (addr : Nat) (id : String) (q : Polygon)
    (hm : ((sampleGeometry addr id).polygons.mapM fun (p : Polygon) =>
      p.finishAppearance sampleManager
        (if (sampleManager.getAppearance (sampleGeometry addr id).id).isSome then
          sampleManager.getAppearance (sampleGeometry addr id).id
          else sampleManager.getAppearance "o")
        sampleIds) = Except.ok [q]) :
    (sampleGeometry addr id).finish sampleManager (sampleManager.getAppearance "o") true sampleIds
      = .ok { sampleGeometry addr id with polygons := [q] } := by
  unfold Geometry.finish
  simp only [hm, Except.map, if_true]
  rw [mergeLoop_of_scan_none Polygon.merge 1 1 _ (mergeScan_single Polygon.merge 0 _)]

/-- C5, at the failing input. The city object holds the geometries `g` and `h`,
both of level of detail 2 and type 0; after `finish` with `optimize = true` it
still holds both, although `g.merge(h)` would succeed. -/
theorem CityObject.finish_keeps_mergeable_geometries :
    twoGeometries.finish sampleManager true sampleIds =
        .ok { twoGeometries with
          geometries :=
            [{ sampleGeometry 1 "g" with
                polygons := [{ resolvedPolygon "p" with geometry := some 1 }] },
              { sampleGeometry 2 "h" with
                polygons :=
                  [{ resolvedPolygon "p" with geometry := some 2, appearance := none }] }] } ∧
      (sampleGeometry 1 "g").lod = (sampleGeometry 2 "h").lod ∧
      (sampleGeometry 1 "g").type = (sampleGeometry 2 "h").type ∧
      ((sampleGeometry 1 "g").merge (some (sampleGeometry 2 "h"))).1 = true := by
  have h1 := sampleGeometry_finish 1 "g" { resolvedPolygon "p" with geometry := some 1 } (by rfl)
  have h2 := sampleGeometry_finish 2 "h"
    { resolvedPolygon "p" with geometry := some 2, appearance := none } (by rfl)
  refine ⟨?_, rfl, rfl, by decide⟩
  unfold CityObject.finish
  have hg : twoGeometries.geometries = [sampleGeometry 1 "g", sampleGeometry 2 "h"] := rfl
  have ho : twoGeometries.id = "o" := rfl
  simp only [hg, ho, List.mapM_cons, List.mapM_nil, h1, h2, bind, Except.bind, pure, Except.pure,
    Except.map, if_true]
  rw [mergeLoop_of_scan_none Geometry.merge 2 1 _ (mergeScan_pair Geometry.merge 1 _ _)]

/-! ## tokenize -/

/-- The head piece of a split and the tokens of what follows it. -/
theorem splitOnP_head_tail (p : Char → Bool) (xs : List Char) :
    ∃ R, xs.splitOnP p = xs.takeWhile (fun c => !p c) :: R ∧
      R.filter (fun t => !t.isEmpty) =
        ((xs.dropWhile fun c => !p c).splitOnP p).filter fun t => !t.isEmpty := by
  induction xs with
  | nil => exact ⟨[], by simp [List.splitOnP_nil]⟩
  | cons y ys ih =>
    obtain ⟨R, hR, hF⟩ := ih
    by_cases hy : p y = true
    · refine ⟨ys.splitOnP p, by simp [List.splitOnP_cons, hy], ?_⟩
      simp [List.splitOnP_cons, hy]
    · refine ⟨R, by simp [List.splitOnP_cons, hy, hR, List.modifyHead], ?_⟩
      simp [hy, hF]

theorem splitTokens_step (p : Char → Bool) (xs : List Char) :
    (xs.splitOnP p).filter (fun t => !t.isEmpty) =
      (if (xs.takeWhile fun c => !p c) = [] then []
        else [xs.takeWhile fun c => !p c]) ++
        ((xs.dropWhile fun c => !p c).splitOnP p).filter fun t => !t.isEmpty := by
  obtain ⟨R, hR, hF⟩ := splitOnP_head_tail p xs
  rw [hR, List.filter_cons, hF]
  by_cases h : (xs.takeWhile fun c => !p c) = []
  · rw [if_pos h, h]; rfl
  · rw [if_neg h]
    have : (!(xs.takeWhile fun c => !p c).isEmpty) = true := by
      cases hx : xs.takeWhile fun c => !p c with
      | nil => exact absurd hx h
      | cons a b => rfl
    rw [if_pos this]; rfl

theorem splitTokens_skip (p : Char → Bool) (xs : List Char) :
    (xs.splitOnP p).filter (fun t => !t.isEmpty) =
      ((xs.dropWhile p).splitOnP p).filter fun t => !t.isEmpty := by
  induction xs with
  | nil => simp
  | cons y ys ih =>
    by_cases hy : p y = true
    · rw [List.dropWhile_cons_of_pos hy, ← ih, List.splitOnP_cons, if_pos hy]
      rfl
    · rw [List.dropWhile_cons_of_neg hy]

theorem find_index (P Q : Char → Bool) (hQ : ∀ c, Q c = !P c) (s pre : List Char) :
    (List.range' pre.length s.length).find? (fun i => P ((pre ++ s).getD i ' ')) =
      if s.dropWhile Q = [] then none else some (pre.length + (s.takeWhile Q).length) := by
  induction s generalizing pre with
  | nil => simp
  | cons c t ih =>
    have hc : (pre ++ c :: t).getD pre.length ' ' = c := by
      rw [List.getD_eq_getElem?_getD, List.getElem?_append_right (le_refl _)]
      simp
    have hnext := ih (pre ++ [c])
    simp only [List.length_append, List.length_singleton, List.append_assoc, List.singleton_append]
      at hnext
    simp only [List.length_cons, List.range'_succ, List.find?_cons, hc]
    by_cases hp : P c = true
    · have hq : Q c = false := by rw [hQ, hp]; rfl
      simp [hp, hq]
    · have hp' : P c = false := by simpa using hp
      have hq : Q c = true := by rw [hQ, hp']; rfl
      simp only [hp', hnext, List.dropWhile_cons, hq, if_true, List.takeWhile_cons, List.length_cons]
      by_cases hd : t.dropWhile Q = []
      · simp [hd]
      · simp [hd]; omega

theorem findFirstOf_eq (delims pre s : List Char) :
    findFirstOf (pre ++ s) delims (some pre.length) =
      if (s.dropWhile fun c => !delims.contains c) = [] then none
      else some (pre.length + (s.takeWhile fun c => !delims.contains c).length) := by
  unfold findFirstOf
  simp only [Option.some_bind, List.length_append, Nat.add_sub_cancel_left]
  exact find_index (fun c => delims.contains c) (fun c => !delims.contains c) (fun _ => rfl) s pre

theorem findFirstNotOf_eq (delims pre s : List Char) :
    findFirstNotOf (pre ++ s) delims (some pre.length) =
      if (s.dropWhile fun c => delims.contains c) = [] then none
      else some (pre.length + (s.takeWhile fun c => delims.contains c).length) := by
  unfold findFirstNotOf
  simp only [Option.some_bind, List.length_append, Nat.add_sub_cancel_left]
  exact find_index (fun c => !delims.contains c) (fun c => delims.contains c)
    (fun c => (Bool.not_not _).symm) s pre

theorem takeWhile_not_ne_nil (p : Char → Bool) (s : List Char) (h : s.dropWhile p ≠ []) :
    ((s.dropWhile p).takeWhile fun c => !p c) ≠ [] := by
  have hh := List.head_dropWhile_not p s h
  cases hs : s.dropWhile p with
  | nil => exact absurd hs h
  | cons a t =>
    simp only [hs, List.head_cons] at hh
    simp [List.takeWhile_cons, hh]

theorem take_length_takeWhile (q : Char → Bool) (l : List Char) :
    l.take (l.takeWhile q).length = l.takeWhile q := by
  have h := List.takeWhile_append_dropWhile q l
  calc l.take (l.takeWhile q).length
      = (l.takeWhile q ++ l.dropWhile q).take (l.takeWhile q).length := by rw [h]
    _ = l.takeWhile q := List.take_left _ _

theorem tokenizeLoop_done (str delims : List Char) (fuel : Nat) (acc : List (List Char)) :
    tokenizeLoop str delims fuel none none acc = some acc := by
  unfold tokenizeLoop
  simp

theorem tokenizeLoop_spec (delims : List Char) (fuel : Nat) :
    ∀ (pre s : List Char) (acc : List (List Char)), s.length < fuel →
      tokenizeLoop (pre ++ s) delims fuel (findFirstNotOf (pre ++ s) delims (some pre.length))
        (findFirstOf (pre ++ s) delims (findFirstNotOf (pre ++ s) delims (some pre.length))) acc
        = some (acc ++ specTokens delims s) := by
  induction fuel with
  | zero => intro pre s acc h; omega
  | succ fuel ih =>
    intro pre s acc hlen
    have hskip : specTokens delims s = specTokens delims (s.dropWhile fun c => delims.contains c) :=
      splitTokens_skip (fun c => delims.contains c) s
    rw [findFirstNotOf_eq]
    by_cases h1 : (s.dropWhile fun c => delims.contains c) = []
    · rw [if_pos h1]
      have : findFirstOf (pre ++ s) delims none = none := rfl
      rw [this, tokenizeLoop_done, hskip, h1]
      simp [specTokens, List.splitOnP_nil]
    · rw [if_neg h1]
      -- the string seen from the start of the token
      have hsplit : pre ++ s = (pre ++ s.takeWhile fun c => delims.contains c) ++
          (s.dropWhile fun c => delims.contains c) := by
        rw [List.append_assoc, List.takeWhile_append_dropWhile]
      have hlp : (pre ++ s.takeWhile fun c => delims.contains c).length =
          pre.length + (s.takeWhile fun c => delims.contains c).length := List.length_append _ _
      have htok := takeWhile_not_ne_nil (fun c => delims.contains c) s h1
      have hstep : specTokens delims (s.dropWhile fun c => delims.contains c) =
          [(s.dropWhile fun c => delims.contains c).takeWhile fun c => !delims.contains c] ++
            specTokens delims ((s.dropWhile fun c => delims.contains c).dropWhile
              fun c => !delims.contains c) := by
        have h := splitTokens_step (fun c => delims.contains c)
          (s.dropWhile fun c => delims.contains c)
        rw [if_neg htok] at h
        exact h
      have hfo := findFirstOf_eq delims (pre ++ s.takeWhile fun c => delims.contains c)
        (s.dropWhile fun c => delims.contains c)
      rw [← hsplit, hlp] at hfo
      rw [hfo]
      have hs1eq := List.takeWhile_append_dropWhile (fun c => !delims.contains c)
        (s.dropWhile fun c => delims.contains c)
      have hdrop : (pre ++ s).drop (pre.length + (s.takeWhile fun c => delims.contains c).length) =
          s.dropWhile fun c => delims.contains c := by
        rw [hsplit]; exact List.drop_left' hlp
      by_cases h2 : ((s.dropWhile fun c => delims.contains c).dropWhile
          fun c => !delims.contains c) = []
      · rw [if_pos h2]
        rw [tokenizeLoop]
        have hn1 : findFirstNotOf (pre ++ s) delims none = none := rfl
        have hn2 : findFirstOf (pre ++ s) delims none = none := rfl
        simp only [Option.isNone_some, Option.isNone_none, and_false, Bool.false_eq_true, if_false,
          hn1, hn2, tokenizeLoop_done, substr, hdrop]
        rw [hskip, hstep, h2]
        rw [h2, List.append_nil] at hs1eq
        rw [hs1eq]
        simp [specTokens, List.splitOnP_nil]
      · rw [if_neg h2]
        rw [tokenizeLoop]
        simp only [Option.isNone_some, and_false, Bool.false_eq_true, if_false, substr, hdrop,
          Nat.add_sub_cancel_left]
        have htake : (s.dropWhile fun c => delims.contains c).take
            ((s.dropWhile fun c => delims.contains c).takeWhile fun c => !delims.contains c).length
            = (s.dropWhile fun c => delims.contains c).takeWhile fun c => !delims.contains c := by
          exact take_length_takeWhile _ _
        rw [htake]
        have hsplit2 : pre ++ s =
            ((pre ++ s.takeWhile fun c => delims.contains c) ++
              (s.dropWhile fun c => delims.contains c).takeWhile fun c => !delims.contains c) ++
            ((s.dropWhile fun c => delims.contains c).dropWhile fun c => !delims.contains c) := by
          rw [List.append_assoc _ _ (List.dropWhile _ _), hs1eq]
          exact hsplit
        have hlen2 : ((pre ++ s.takeWhile fun c => delims.contains c) ++
              (s.dropWhile fun c => delims.contains c).takeWhile fun c => !delims.contains c).length
            = pre.length + (s.takeWhile fun c => delims.contains c).length +
              ((s.dropWhile fun c => delims.contains c).takeWhile
                fun c => !delims.contains c).length := by
          rw [List.length_append, hlp]
        have hshort : ((s.dropWhile fun c => delims.contains c).dropWhile
            fun c => !delims.contains c).length < fuel := by
          have e1 := congrArg List.length hs1eq
          have e2 := congrArg List.length (List.takeWhile_append_dropWhile
            (fun c => delims.contains c) s)
          have e3 : 0 < ((s.dropWhile fun c => delims.contains c).takeWhile
              fun c => !delims.contains c).length := List.length_pos.mpr htok
          simp only [List.length_append] at e1 e2
          omega
        have hrec := ih ((pre ++ s.takeWhile fun c => delims.contains c) ++
              (s.dropWhile fun c => delims.contains c).takeWhile fun c => !delims.contains c)
            ((s.dropWhile fun c => delims.contains c).dropWhile fun c => !delims.contains c)
            (acc ++ [(s.dropWhile fun c => delims.contains c).takeWhile
          fun c => !delims.contains c]) hshort
        rw [← hsplit2, hlen2] at hrec
        rw [hrec, hskip, hstep, List.append_assoc]

theorem tokenize_eq (delims str : List Char) :
    tokenize str delims = some (specTokens delims str) := by
  have h := tokenizeLoop_spec delims (str.length + 1) [] str [] (Nat.lt_succ_self _)
  simpa [tokenize] using h

/-! ## getCityObjectsTypeMaskFromString -/

theorem applyName_idem (COT : String → Nat) (neg : Bool) (mask : Nat) (n : String) :
    applyName COT neg (applyName COT neg mask n) n = applyName COT neg mask n := by
  unfold applyName clearBits
  cases neg
  · simp only [Bool.false_eq_true, if_false]; rw [Nat.lor_assoc, Nat.or_self]
  · simp only [if_true]; rw [Nat.land_assoc, Nat.and_self]

set_option maxHeartbeats 1000000 in
set_option maxRecDepth 100000 in
theorem comparedNames_key_injective :
    ∀ a ∈ comparedNames, ∀ b ∈ comparedNames, nameKey a = nameKey b → a = b := by
  decide

theorem specTypeNames_subset : ∀ n ∈ specTypeNames, n ∈ comparedNames := by
  simp [specTypeNames, comparedNames]

theorem comparedNames_subset : ∀ n ∈ comparedNames, n ∈ specTypeNames := by
  simp [specTypeNames, comparedNames]

/-- A fold of guarded updates over names of which only `n0` can match. -/
theorem foldl_guarded (COT : String → Nat) (neg : Bool) (w : List Char) (n0 : String)
    (L : List String) (hinj : ∀ n ∈ L, nameKey n = w → n = n0) (mask : Nat) :
    L.foldl (fun m n => if nameKey n = w then applyName COT neg m n else m) mask =
      if n0 ∈ L ∧ nameKey n0 = w then applyName COT neg mask n0 else mask := by
  induction L generalizing mask with
  | nil => simp
  | cons n L ih =>
    have hinj' : ∀ n ∈ L, nameKey n = w → n = n0 := fun a ha => hinj a (List.mem_cons_of_mem _ ha)
    rw [List.foldl_cons, ih hinj']
    by_cases hk : nameKey n = w
    · have hn : n = n0 := hinj n (List.mem_cons_self _ _) hk
      subst hn
      simp only [hk, if_true, List.mem_cons, true_or, and_true, true_and]
      by_cases hm : n ∈ L
      · simp [hm, applyName_idem]
      · simp [hm]
    · simp only [hk, if_false]
      by_cases hk0 : nameKey n0 = w
      · have hne : n0 ≠ n := fun h => hk (h ▸ hk0)
        simp [hk0, hne]
      · simp [hk0]

theorem compareCityNameMask_eq (COT : String → Nat) (token : List Char) (mask : Nat)
    (name : String) :
    compareCityNameMask COT token mask name =
      if nameKey name =
          (if (token.head? == some '~' || token.head? == some '!') then token.drop 1 else token).map
            Char.toLower
      then applyName COT (token.head? == some '~' || token.head? == some '!') mask name
      else mask := by
  unfold compareCityNameMask caseInsensitiveStringCompare applyName nameKey
  simp only [beq_iff_eq]

/-- All the macro lines together act as one look-up of the word among the type names. -/
theorem foldl_compareCityNameMask (COT : String → Nat) (token : List Char) (mask : Nat) :
    comparedNames.foldl (compareCityNameMask COT token) mask =
      match specTypeName
        (if (token.head? == some '~' || token.head? == some '!') then token.drop 1 else token) with
      | some n => applyName COT (token.head? == some '~' || token.head? == some '!') mask n
      | none => mask := by
  generalize hneg : (token.head? == some '~' || token.head? == some '!') = neg
  generalize hword : (if neg = true then token.drop 1 else token) = word
  have hstep : (compareCityNameMask COT token) =
      fun m n => if nameKey n = word.map Char.toLower then applyName COT neg m n else m := by
    funext m n
    rw [compareCityNameMask_eq, hneg, hword]
  rw [hstep]
  cases hfind : specTypeName word with
  | none =>
    have hnone : ∀ n ∈ comparedNames, ¬ nameKey n = word.map Char.toLower := by
      intro n hn hk
      have := List.find?_eq_none.mp hfind n (comparedNames_subset n hn)
      simp [nameKey] at hk
      simp [hk] at this
    rw [foldl_guarded COT neg _ "All" comparedNames (fun n hn hk => absurd hk (hnone n hn))]
    have : ¬ ("All" ∈ comparedNames ∧ nameKey "All" = word.map Char.toLower) :=
      fun h => hnone _ h.1 h.2
    rw [if_neg this]
  | some n0 =>
    have hmem : n0 ∈ comparedNames := specTypeNames_subset n0 (List.mem_of_find?_eq_some hfind)
    have hkey : nameKey n0 = word.map Char.toLower := by
      have := List.find?_some hfind
      simpa [nameKey] using this
    rw [foldl_guarded COT neg _ n0 comparedNames
      (fun n hn hk => comparedNames_key_injective n hn n0 hmem (hk.trans hkey.symm))]
    rw [if_pos ⟨hmem, hkey⟩]

theorem token_step_eq (COT : String → Nat) (mask : Nat) (token : List Char) :
    (if token.length = 0 then mask
      else comparedNames.foldl (compareCityNameMask COT token) mask) =
      specApplyToken COT mask token := by
  cases token with
  | nil => simp [specApplyToken]
  | cons c rest =>
    rw [if_neg (by simp), foldl_compareCityNameMask]
    unfold specApplyToken applyName
    by_cases hc : c = '~' ∨ c = '!'
    · have : (((c :: rest).head? == some '~' || (c :: rest).head? == some '!')) = true := by
        rcases hc with h | h <;> simp [h]
      simp only [this, if_true, hc, List.drop_succ_cons, List.drop_zero]
    · have : (((c :: rest).head? == some '~' || (c :: rest).head? == some '!')) = false := by
        simp only [not_or] at hc
        simp [hc.1, hc.2]
      simp only [this, hc, if_false, Bool.false_eq_true]

theorem mask_refines (COT : String → Nat) (delimiters s : List Char) :
    getCityObjectsTypeMaskFromString COT delimiters s = some (specTypeMask COT delimiters s) := by
  unfold getCityObjectsTypeMaskFromString specTypeMask
  rw [tokenize_eq]
  simp only [Option.map_some']
  congr 2
  funext mask token
  exact token_step_eq COT mask token

theorem specTokens_eq_of_split (delims w1 w2 : List Char) (c : Char) (hc : c ∈ delims)
    (h1 : ∀ x ∈ w1, x ∉ delims) (h2 : ∀ x ∈ w2, x ∉ delims)
    (hn1 : w1 ≠ []) (hn2 : w2 ≠ []) :
    specTokens delims (w1 ++ c :: w2) = [w1, w2] := by
  unfold specTokens
  rw [List.splitOnP_first _ _ (fun x hx => by simpa using h1 x hx) c (by simpa using hc),
    List.splitOnP_eq_single _ _ (fun x hx => by simpa using h2 x hx)]
  cases w1 with
  | nil => exact absurd rfl hn1
  | cons a b =>
    cases w2 with
    | nil => exact absurd rfl hn2
    | cons a2 b2 => rfl

theorem specTypeName_building : specTypeName "Building".toList = some "Building" := by decide

theorem specTypeName_road : specTypeName "Road".toList = some "Road" := by decide

theorem specTypeName_all : specTypeName "All".toList = some "All" := by decide

/-- C10. For every enumeration `COT`, every delimiter set and every string,
`getCityObjectsTypeMaskFromString` returns the left-to-right fold, from the
empty mask, of the delimiter-separated tokens of the string, where a token that
is a type name up to case sets the bits of that name, such a name behind `~` or
`!` clears them, `All` is one of the names and any other token leaves the mask
as it is.  When the comma is a delimiter and no character of the two strings
below but the comma is one, `"Building,Road"` gives the bits of Building and
Road and `"All,~Road"` the bits of All without those of Road. -/
theorem getCityObjectsTypeMaskFromString_refines (COT : String → Nat)
    (delimiters : List Char) :
    (∀ s, getCityObjectsTypeMaskFromString COT delimiters s
        = some (specTypeMask COT delimiters s)) ∧
    (',' ∈ delimiters → (∀ c ∈ "BuildingRoadAll~".toList, c ∉ delimiters) →
      getCityObjectsTypeMaskFromString COT delimiters "Building,Road".toList
          = some (COT "Building" ||| COT "Road") ∧
      getCityObjectsTypeMaskFromString COT delimiters "All,~Road".toList
          = some (clearBits (COT "All") (COT "Road"))) := by
  refine ⟨mask_refines COT delimiters, ?_⟩
  intro hcomma hletters
  have e1 : "Building,Road".toList = "Building".toList ++ ',' :: "Road".toList := by decide
  have e2 : "All,~Road".toList = "All".toList ++ ',' :: "~Road".toList := by decide
  have t1 := specTokens_eq_of_split delimiters "Building".toList "Road".toList ',' hcomma
    (fun x hx => hletters x (by revert x; decide)) (fun x hx => hletters x (by revert x; decide))
    (by decide) (by decide)
  have t2 := specTokens_eq_of_split delimiters "All".toList "~Road".toList ',' hcomma
    (fun x hx => hletters x (by revert x; decide)) (fun x hx => hletters x (by revert x; decide))
    (by decide) (by decide)
  rw [mask_refines, mask_refines, specTypeMask, specTypeMask, e1, e2, t1, t2]
  have r1 : "Road".toList = 'R' :: "oad".toList := by decide
  have b1 : "Building".toList = 'B' :: "uilding".toList := by decide
  have a1 : "All".toList = 'A' :: "ll".toList := by decide
  have n1 : "~Road".toList = '~' :: "Road".toList := by decide
  constructor
  · simp only [List.foldl_cons, List.foldl_nil]
    conv_lhs => rw [b1, r1]
    simp only [specApplyToken]
    rw [← b1, ← r1, specTypeName_building, specTypeName_road]
    simp
  · simp only [List.foldl_cons, List.foldl_nil]
    conv_lhs => rw [a1, n1]
    simp only [specApplyToken]
    rw [← a1, specTypeName_all, specTypeName_road]
    simp

/-- With bit `k` for the `k`-th name, 24 bits for `All` and the delimiters
comma and blank: `"Building,Road"` gives `2 + 512` and `"All,~Road"` gives
`16777215 - 512`. -/
theorem getCityObjectsTypeMaskFromString_refines_witness :
    getCityObjectsTypeMaskFromString sampleCOT [',', ' '] "Building,Road".toList = some 514 ∧
      getCityObjectsTypeMaskFromString sampleCOT [',', ' '] "All,~Road".toList
        = some 16776703 := by
  have h := (getCityObjectsTypeMaskFromString_refines sampleCOT [',', ' ']).2 (by decide)
    (by decide)
  have e1 : sampleCOT "Building" ||| sampleCOT "Road" = 514 := by decide
  have e2 : clearBits (sampleCOT "All") (sampleCOT "Road") = 16776703 := by decide
  rw [e1, e2] at h
  exact h

/-! ## AppearanceManager -/

namespace AppearanceManager

theorem getAppearance_addAppearance (am : AppearanceManager) (app : Option Nat) (n : String) :
    (am.addAppearance app).getAppearance n = am.getAppearance n := by
  cases app <;> rfl

theorem appearanceMap_assignTexCoords (am : AppearanceManager) (tex : Option TexCoords) :
    (am.assignTexCoords tex).2.appearanceMap = am.appearanceMap := by
  unfold assignTexCoords
  simp only []
  split <;> rfl

theorem getAppearance_assignTexCoords (am : AppearanceManager) (tex : Option TexCoords)
    (n : String) : (am.assignTexCoords tex).2.getAppearance n = am.getAppearance n := by
  unfold getAppearance
  rw [appearanceMap_assignTexCoords]

/-- A call to `assignNode` that returns keeps every binding there was. -/
theorem getAppearance_assignNode (am am1 : AppearanceManager) (nodeid n : String) (X : Nat)
    (hbound : am.getAppearance n = some X) (h : am.assignNode nodeid = .ok am1) :
    am1.getAppearance n = some X := by
  unfold assignNode at h
  simp only [] at h
  split at h
  · rename_i hnone
    have hne : nodeid ≠ n := by
      intro heq
      subst heq
      have : (am.getAppearance nodeid).isNone = true := hnone
      rw [hbound] at this
      cases this
    split at h
    · cases h
    · rename_i a ha
      split at h
      · cases h
        unfold getAppearance
        simp only [appearanceMap_assignTexCoords]
        rw [List.lookup_cons]
        have : (n == nodeid) = false := by simpa using (Ne.symm hne)
        rw [this]
        exact hbound
      · cases h
        show List.lookup n (_ :: am.appearanceMap) = some X
        rw [List.lookup_cons]
        have : (n == nodeid) = false := by simpa using (Ne.symm hne)
        rw [this]
        exact hbound
  · cases h
    exact hbound

theorem getAppearance_call (am am1 : AppearanceManager) (c : ManagerCall) (n : String) (X : Nat)
    (hbound : am.getAppearance n = some X) (h : am.call c = .ok am1) :
    am1.getAppearance n = some X := by
  cases c with
  | addAppearance app =>
    cases h
    rw [getAppearance_addAppearance]; exact hbound
  | assignNode nodeid => exact getAppearance_assignNode am am1 nodeid n X hbound h
  | assignTexCoords tex =>
    cases h
    rw [getAppearance_assignTexCoords]; exact hbound

theorem getAppearance_run (calls : List ManagerCall) :
    ∀ (am am1 : AppearanceManager) (n : String) (X : Nat),
      am.getAppearance n = some X → am.run calls = .ok am1 → am1.getAppearance n = some X := by
  induction calls with
  | nil =>
    intro am am1 n X hbound h
    cases h
    exact hbound
  | cons c calls ih =>
    intro am am1 n X hbound h
    unfold run at h
    rw [List.foldlM_cons] at h
    cases hc : am.call c with
    | error e => rw [hc] at h; cases h
    | ok am2 =>
      rw [hc] at h
      exact ih am2 am1 n X (getAppearance_call am am2 c n X hbound hc) h


theorem appearances_assignTexCoords (am : AppearanceManager) (tex : Option TexCoords) :
    (am.assignTexCoords tex).2.appearances = am.appearances := by
  unfold assignTexCoords
  simp only []
  split <;> rfl

/-- With an appearance registered `assignNode` returns, and the registered
appearances stay as they are. -/
theorem assignNode_ok (am : AppearanceManager) (nodeid : String) (h : am.appearances ≠ []) :
    ∃ am1, am.assignNode nodeid = .ok am1 ∧ am1.appearances = am.appearances := by
  unfold assignNode
  simp only []
  split
  · cases hl : am.appearances.getLast? with
    | none => exact absurd (List.getLast?_eq_none_iff.mp hl) h
    | some a =>
      simp only []
      split
      · exact ⟨_, rfl, by simp only [appearances_assignTexCoords]⟩
      · exact ⟨_, rfl, rfl⟩
  · exact ⟨_, rfl, rfl⟩

theorem call_ok (am : AppearanceManager) (c : ManagerCall) (h : am.appearances ≠ []) :
    ∃ am1, am.call c = .ok am1 ∧ am1.appearances ≠ [] := by
  cases c with
  | addAppearance app =>
    refine ⟨_, rfl, ?_⟩
    cases app with
    | none => exact h
    | some a => simp [addAppearance]
  | assignNode nodeid =>
    obtain ⟨am1, h1, h2⟩ := assignNode_ok am nodeid h
    exact ⟨am1, h1, by rw [h2]; exact h⟩
  | assignTexCoords tex =>
    exact ⟨_, rfl, by rw [appearances_assignTexCoords]; exact h⟩

theorem run_ok (calls : List ManagerCall) :
    ∀ am : AppearanceManager, am.appearances ≠ [] → ∃ am1, am.run calls = .ok am1 := by
  induction calls with
  | nil => intro am _; exact ⟨am, rfl⟩
  | cons c calls ih =>
    intro am h
    obtain ⟨am1, h1, h2⟩ := call_ok am c h
    obtain ⟨am2, h3⟩ := ih am1 h2
    refine ⟨am2, ?_⟩
    unfold run at h3 ⊢
    rw [List.foldlM_cons, h1]
    exact h3

/-- On an identifier that is not bound `assignNode` binds it to the appearance
registered last. -/
theorem assignNode_unbound (am : AppearanceManager) (n : String) (a : Nat)
    (hfree : am.getAppearance n = none) (hl : am.appearances.getLast? = some a) :
    ∃ am1, am.assignNode n = .ok am1 ∧ am1.appearanceMap = (n, a) :: am.appearanceMap ∧
      am1.appearances = am.appearances := by
  have hfree1 : ({ am with lastId := n } : AppearanceManager).getAppearance n = none := hfree
  unfold assignNode
  simp only [hfree1, Option.isNone_none, if_true, hl]
  split
  · exact ⟨_, rfl, by simp only [appearanceMap_assignTexCoords],
      by simp only [appearances_assignTexCoords]⟩
  · exact ⟨_, rfl, rfl, rfl⟩

/-- The calls of the example of C11 from a manager in which `n1` is not
bound. -/
theorem run_example (am : AppearanceManager) (X Y : Nat)
    (hfree : am.getAppearance "n1" = none) :
    ∃ am1, am.run [.addAppearance (some X), .assignNode "n1", .addAppearance (some Y),
        .assignNode "n1"] = .ok am1 ∧ am1.getAppearance "n1" = some X := by
  obtain ⟨am1, h1, hmap, happ⟩ := assignNode_unbound (am.addAppearance (some X)) "n1" X
    (by rw [getAppearance_addAppearance]; exact hfree) (by simp [addAppearance])
  have hb : am1.getAppearance "n1" = some X := by
    unfold getAppearance
    rw [hmap]
    simp
  have hne2 : (am1.addAppearance (some Y)).appearances ≠ [] := by simp [addAppearance]
  obtain ⟨am2, h2, _⟩ := assignNode_ok (am1.addAppearance (some Y)) "n1" hne2
  refine ⟨am2, ?_, ?_⟩
  · unfold run
    simp only [List.foldlM_cons, List.foldlM_nil, call, bind, Except.bind, h1, h2, pure,
      Except.pure]
  · exact getAppearance_assignNode _ _ "n1" "n1" X
      (by rw [getAppearance_addAppearance]; exact hb) h2

theorem getTexCoords_of_lookup (am : AppearanceManager) (n : String) (t buf : TexCoords)
    (h : am.texCoordsMap.lookup n = some (some t)) : am.getTexCoords n buf = (true, t) := by
  unfold getTexCoords
  rw [h]

/-- C11. In every sequence of `addAppearance`, `assignNode` and
`assignTexCoords` calls an identifier that is bound to an appearance `X` stays
bound to `X` after every later call: whenever the calls return the binding is
`X`, and they all return when an appearance is registered.  In particular
`addAppearance(X)`, `assignNode("n1")`, `addAppearance(Y)`, `assignNode("n1")`
on a manager in which `n1` is not bound leaves `n1` bound to `X`. -/
theorem first_assignment_wins :
    (∀ (am : AppearanceManager) (n : String) (X : Nat) (calls : List ManagerCall),
      am.getAppearance n = some X →
        (∀ am1, am.run calls = .ok am1 → am1.getAppearance n = some X) ∧
        (am.appearances ≠ [] → ∃ am1, am.run calls = .ok am1 ∧ am1.getAppearance n = some X)) ∧
    (∀ (am : AppearanceManager) (X Y : Nat), am.getAppearance "n1" = none →
      ∃ am1, am.run [.addAppearance (some X), .assignNode "n1", .addAppearance (some Y),
          .assignNode "n1"] = .ok am1 ∧ am1.getAppearance "n1" = some X) := by
  refine ⟨?_, run_example⟩
  intro am n X calls hbound
  refine ⟨fun am1 h => getAppearance_run calls am am1 n X hbound h, ?_⟩
  intro happ
  obtain ⟨am1, h1⟩ := run_ok calls am happ
  exact ⟨am1, h1, getAppearance_run calls am am1 n X hbound h1⟩

/-- The identifier `g` of the sample manager keeps its appearance through a
later `addAppearance`, `assignNode("g")` and `assignTexCoords`. -/
theorem first_assignment_wins_witness :
    sampleManager.getAppearance "g" = some 7 ∧
      ∃ am1, sampleManager.run [.addAppearance (some 8), .assignNode "g",
          .assignTexCoords none] = .ok am1 ∧ am1.getAppearance "g" = some 7 :=
  ⟨rfl, (first_assignment_wins.1 sampleManager "g" 7 _ rfl).2 (by decide)⟩

/-- C12. From a manager that holds no texture coordinates, for every
appearance `X`, every non-empty identifier `n` that is not bound and every
texture-coordinate set `t`, the calls `addAppearance(X)`, `assignNode(n)`,
`assignTexCoords(t)` in this order make `assignTexCoords` return true, bind
`n` to `X` and record `t` as the texture coordinates of `n`. -/
theorem protocol_in_order (am : AppearanceManager) (X : Nat) (n : String) (t : TexCoords)
    (hheld : am.lastCoords = none) (hn : n ≠ "") (hfree : am.getAppearance n = none) :
    ∃ am2, (am.addAppearance (some X)).assignNode n = .ok am2 ∧
      (am2.assignTexCoords (some t)).1 = true ∧
      (am2.assignTexCoords (some t)).2.getAppearance n = some X ∧
      ∀ buf, (am2.assignTexCoords (some t)).2.getTexCoords n buf = (true, t) := by
  obtain ⟨apps, amap, tmap, lid, lc⟩ := am
  simp only [getAppearance] at hfree
  simp only at hheld
  subst hheld
  refine ⟨⟨apps ++ [X], (n, X) :: amap, tmap, n, none⟩, ?_, ?_, ?_, ?_⟩
  · simp [assignNode, addAppearance, getAppearance, hfree]
  · simp [assignTexCoords, hn]
  · simp [assignTexCoords, hn, getAppearance]
  · intro buf
    simp [assignTexCoords, hn, getTexCoords]

/-- The protocol in order on the empty manager. -/
theorem protocol_in_order_witness :
    emptyManager.lastCoords = none ∧ emptyManager.getAppearance "n1" = none ∧
      ∃ am2, (emptyManager.addAppearance (some 7)).assignNode "n1" = .ok am2 ∧
        (am2.assignTexCoords (some [⟨0, 0⟩])).1 = true ∧
        (am2.assignTexCoords (some [⟨0, 0⟩])).2.getAppearance "n1" = some 7 ∧
        ∀ buf, (am2.assignTexCoords (some [⟨0, 0⟩])).2.getTexCoords "n1" buf
          = (true, [⟨0, 0⟩]) :=
  ⟨rfl, rfl, protocol_in_order emptyManager 7 "n1" [⟨0, 0⟩] rfl (by decide) rfl⟩

/-- C13. When `assignTexCoords(t)` is called while no identifier awaits
coordinates it returns false, records `t` for no identifier and holds `t`;
then, with an appearance registered, `assignNode(n)` for a non-empty
identifier `n` that is not bound records `t` as the texture coordinates of `n`
and leaves nothing held, and a further `assignTexCoords(t2)` returns false and
does not replace the coordinates of `n`. -/
theorem protocol_held (am : AppearanceManager) (t t2 : TexCoords) (n : String)
    (hidle : am.lastId = "") (happ : am.appearances ≠ []) (hn : n ≠ "")
    (hfree : am.getAppearance n = none) :
    (am.assignTexCoords (some t)).1 = false ∧
    (am.assignTexCoords (some t)).2.texCoordsMap = am.texCoordsMap ∧
    (am.assignTexCoords (some t)).2.lastCoords = some t ∧
    ∃ am2, (am.assignTexCoords (some t)).2.assignNode n = .ok am2 ∧
      (∀ buf, am2.getTexCoords n buf = (true, t)) ∧ am2.lastCoords = none ∧
      (am2.assignTexCoords (some t2)).1 = false ∧
      ∀ buf, (am2.assignTexCoords (some t2)).2.getTexCoords n buf = (true, t) := by
  obtain ⟨apps, amap, tmap, lid, lc⟩ := am
  simp only [getAppearance] at hfree
  simp only at hidle happ
  subst hidle
  obtain ⟨a, ha⟩ : ∃ a, apps.getLast? = some a := by
    cases hl : apps.getLast? with
    | none => exact absurd (List.getLast?_eq_none_iff.mp hl) happ
    | some a => exact ⟨a, rfl⟩
  refine ⟨by simp [assignTexCoords], by simp [assignTexCoords], by simp [assignTexCoords],
    ⟨apps, (n, a) :: amap, (n, some t) :: tmap, "", none⟩, ?_, ?_, rfl, ?_, ?_⟩
  · simp [assignTexCoords, assignNode, getAppearance, hfree, ha, hn]
  · intro buf
    simp [getTexCoords]
  · simp [assignTexCoords]
  · intro buf
    simp [assignTexCoords, getTexCoords]

/-- Held coordinates on the sample manager, which holds one appearance and
awaits nothing. -/
theorem protocol_held_witness :
    sampleManager.lastId = "" ∧ sampleManager.appearances ≠ [] ∧
      (sampleManager.assignTexCoords (some [⟨0, 0⟩])).1 = false ∧
      ∃ am2, (sampleManager.assignTexCoords (some [⟨0, 0⟩])).2.assignNode "n1" = .ok am2 ∧
        (∀ buf, am2.getTexCoords "n1" buf = (true, [⟨0, 0⟩])) ∧ am2.lastCoords = none := by
  have h := protocol_held sampleManager [⟨0, 0⟩] [⟨1, 1⟩] "n1" rfl (by decide) (by decide) rfl
  obtain ⟨h1, _, _, am2, h4, h5, h6, _⟩ := h
  exact ⟨rfl, by decide, h1, am2, h4, h5, h6⟩

end AppearanceManager

/-! ## Tesselator.endCallback -/

namespace Tesselator

theorem foldl_push_getD (c : List Nat) (idx : List Nat) (n : Nat) (h : n ≤ c.length) :
    (List.range n).foldl (fun acc i => acc ++ [c.getD i 0]) idx = idx ++ c.take n := by
  induction n with
  | zero => simp
  | succ n ih =>
    rw [List.range_succ, List.foldl_append, ih (by omega)]
    simp only [List.foldl_cons, List.foldl_nil, List.append_assoc]
    congr 1
    rw [List.take_succ]
    have hn : n < c.length := by omega
    simp [List.getD_eq_getElem?_getD, List.getElem?_eq_getElem hn]

theorem flatMap_range_succ {β : Type} (f : Nat → List β) (m : Nat) :
    (List.range (m + 1)).flatMap f = (List.range m).flatMap f ++ f m := by
  rw [List.range_succ]
  simp [List.flatMap]

/-- The fan loop after `m` passes. -/
theorem foldl_expandStep_fan (c idx : List Nat) (c0 : Nat) (m : Nat) :
    (List.range' 2 m).foldl (expandStep GL_TRIANGLE_FAN c) (c0, c.getD 1 0, idx) =
      (c0, c.getD (m + 1) 0,
        idx ++ (List.range m).flatMap fun k => [c0, c.getD (k + 1) 0, c.getD (k + 2) 0]) := by
  induction m with
  | zero => simp [List.flatMap]
  | succ m ih =>
    have e : 2 + 1 * m = m + 2 := by omega
    rw [List.range'_concat, List.foldl_append, ih, flatMap_range_succ, e]
    have hne : ¬ (GL_TRIANGLE_FAN = GL_TRIANGLE_STRIP) := by decide
    simp only [List.foldl_cons, List.foldl_nil, expandStep, true_or, if_true, hne, false_and,
      if_false, List.append_assoc, List.cons_append, List.nil_append]

/-- The strip loop after `m` passes. -/
theorem foldl_expandStep_strip (c idx : List Nat) (m : Nat) :
    (List.range' 2 m).foldl (expandStep GL_TRIANGLE_STRIP c) (c.getD 0 0, c.getD 1 0, idx) =
      (c.getD m 0, c.getD (m + 1) 0,
        idx ++ (List.range m).flatMap fun k =>
          if (k + 2) % 2 = 0 then [c.getD k 0, c.getD (k + 1) 0, c.getD (k + 2) 0]
          else [c.getD (k + 1) 0, c.getD k 0, c.getD (k + 2) 0]) := by
  induction m with
  | zero => simp [List.flatMap]
  | succ m ih =>
    have e : 2 + 1 * m = m + 2 := by omega
    rw [List.range'_concat, List.foldl_append, ih, flatMap_range_succ, e]
    have hne : ¬ (GL_TRIANGLE_STRIP = GL_TRIANGLE_FAN) := by decide
    simp only [List.foldl_cons, List.foldl_nil, expandStep, hne, false_or, true_and, if_true]
    by_cases hev : (m + 2) % 2 = 0
    · simp [hev]
    · have hodd : (m + 2) % 2 = 1 := by omega
      simp [hodd]


/-- Closed form of `endCallback` on a batch of at least two indices. -/
theorem endCallback_eq (t : Tesselator) (h2 : 2 ≤ t.curIndices.length) :
    t.endCallback = .ok
      { t with
        indices := t.indices ++
          (if t.curMode = GL_TRIANGLES then t.curIndices
          else if t.curMode = GL_TRIANGLE_FAN then
            (List.range (t.curIndices.length - 2)).flatMap fun k =>
              [t.curIndices.getD 0 0, t.curIndices.getD (k + 1) 0, t.curIndices.getD (k + 2) 0]
          else if t.curMode = GL_TRIANGLE_STRIP then
            (List.range (t.curIndices.length - 2)).flatMap fun k =>
              if (k + 2) % 2 = 0 then
                [t.curIndices.getD k 0, t.curIndices.getD (k + 1) 0, t.curIndices.getD (k + 2) 0]
              else
                [t.curIndices.getD (k + 1) 0, t.curIndices.getD k 0, t.curIndices.getD (k + 2) 0]
          else [])
        curIndices := [] } := by
  unfold endCallback
  by_cases h1 : t.curMode = GL_TRIANGLES
  · simp only [h1, if_true]
    rw [foldl_push_getD _ _ _ (le_refl _), List.take_length]
  · simp only [h1, if_false]
    obtain ⟨c0, c1, rest, hc⟩ : ∃ c0 c1 rest, t.curIndices = c0 :: c1 :: rest := by
      match hh : t.curIndices with
      | [] => rw [hh] at h2; simp at h2
      | [_] => rw [hh] at h2; simp at h2
      | c0 :: c1 :: rest => exact ⟨c0, c1, rest, rfl⟩
    have hg0 : t.curIndices.getD 0 0 = c0 := by rw [hc]; rfl
    have hg1 : t.curIndices.getD 1 0 = c1 := by rw [hc]; rfl
    by_cases hf : t.curMode = GL_TRIANGLE_FAN
    · have := foldl_expandStep_fan t.curIndices t.indices c0 (t.curIndices.length - 2)
      rw [hg1] at this
      simp only [hf, true_or, if_true]
      rw [hc] at this ⊢
      simp only [this]
      simp
    · by_cases hs : t.curMode = GL_TRIANGLE_STRIP
      · have := foldl_expandStep_strip t.curIndices t.indices (t.curIndices.length - 2)
        rw [hg0, hg1] at this
        simp only [hs, or_true, if_true]
        have hne : ¬ (GL_TRIANGLE_STRIP = GL_TRIANGLE_FAN) := by decide
        simp only [hne, if_false]
        rw [hc] at this ⊢
        simp only [this]
      · simp [hf, hs]


theorem flatMap_range'_two {β : Type} (f : Nat → List β) (n : Nat) :
    (List.range' 2 n).flatMap f = (List.range n).flatMap fun k => f (k + 2) := by
  induction n with
  | zero => simp [List.flatMap]
  | succ n ih =>
    have e : 2 + 1 * n = n + 2 := by omega
    rw [List.range'_concat, flatMap_range_succ, ← ih, e]
    simp [List.flatMap]

theorem getD_mem_of_lt (c : List Nat) (j : Nat) (h : j < c.length) : c.getD j 0 ∈ c := by
  rw [List.getD_eq_getElem _ _ h]
  exact List.getElem_mem h

/-- C16. For a pending batch `c` of `L ≥ 3` indices `endCallback` appends to the
index buffer: in `GL_TRIANGLES` mode `c` itself; in `GL_TRIANGLE_FAN` mode the
triples `(c[0], c[i-1], c[i])` for `i = 2..L-1`; in `GL_TRIANGLE_STRIP` mode
the triples `(c[i-2], c[i-1], c[i])` for even `i` and `(c[i-1], c[i-2], c[i])`
for odd `i`, `i = 2..L-1`; in any other mode nothing.  In every case the call
returns, the pending batch is emptied and every appended index is an element
of `c`. -/
theorem endCallback_expands (t : Tesselator) (hlen : 3 ≤ t.curIndices.length) :
    (t.curMode = GL_TRIANGLES →
      t.endCallback = .ok { t with indices := t.indices ++ t.curIndices, curIndices := [] }) ∧
    (t.curMode = GL_TRIANGLE_FAN →
      t.endCallback = .ok
        { t with
          indices := t.indices ++
            (List.range' 2 (t.curIndices.length - 2)).flatMap fun i =>
              [t.curIndices.getD 0 0, t.curIndices.getD (i - 1) 0, t.curIndices.getD i 0]
          curIndices := [] }) ∧
    (t.curMode = GL_TRIANGLE_STRIP →
      t.endCallback = .ok
        { t with
          indices := t.indices ++
            (List.range' 2 (t.curIndices.length - 2)).flatMap fun i =>
              if i % 2 = 0 then
                [t.curIndices.getD (i - 2) 0, t.curIndices.getD (i - 1) 0, t.curIndices.getD i 0]
              else
                [t.curIndices.getD (i - 1) 0, t.curIndices.getD (i - 2) 0, t.curIndices.getD i 0]
          curIndices := [] }) ∧
    (t.curMode ≠ GL_TRIANGLES → t.curMode ≠ GL_TRIANGLE_FAN → t.curMode ≠ GL_TRIANGLE_STRIP →
      t.endCallback = .ok { t with curIndices := [] }) ∧
    ∃ t1 appended, t.endCallback = .ok t1 ∧ t1.curIndices = [] ∧
      t1.indices = t.indices ++ appended ∧ ∀ x ∈ appended, x ∈ t.curIndices := by
  have hclosed := endCallback_eq t (by omega)
  have hft : ¬ (GL_TRIANGLE_FAN = GL_TRIANGLES) := by decide
  have hst : ¬ (GL_TRIANGLE_STRIP = GL_TRIANGLES) := by decide
  have hsf : ¬ (GL_TRIANGLE_STRIP = GL_TRIANGLE_FAN) := by decide
  refine ⟨?_, ?_, ?_, ?_, ?_⟩
  · intro h
    rw [hclosed, h]
    simp
  · intro h
    rw [hclosed, h, flatMap_range'_two]
    simp [hft]
  · intro h
    rw [hclosed, h, flatMap_range'_two]
    simp [hst, hsf]
  · intro h1 h2 h3
    rw [hclosed]
    simp [h1, h2, h3]
  · refine ⟨_, _, hclosed, rfl, rfl, ?_⟩
    intro x hx
    by_cases h1 : t.curMode = GL_TRIANGLES
    · rw [if_pos h1] at hx; exact hx
    · by_cases h2 : t.curMode = GL_TRIANGLE_FAN
      · rw [if_neg h1, if_pos h2] at hx
        simp only [List.flatMap, List.mem_flatten, List.mem_map, List.mem_range] at hx
        obtain ⟨l, ⟨k, hk, rfl⟩, hx⟩ := hx
        simp only [List.mem_cons, List.mem_singleton, List.mem_nil_iff, or_false] at hx
        rcases hx with rfl | rfl | rfl <;> exact getD_mem_of_lt _ _ (by omega)
      · by_cases h3 : t.curMode = GL_TRIANGLE_STRIP
        · rw [if_neg h1, if_neg h2, if_pos h3] at hx
          simp only [List.flatMap, List.mem_flatten, List.mem_map, List.mem_range] at hx
          obtain ⟨l, ⟨k, hk, rfl⟩, hx⟩ := hx
          split at hx <;>
            (simp only [List.mem_cons, List.mem_singleton, List.mem_nil_iff, or_false] at hx
             rcases hx with rfl | rfl | rfl <;> exact getD_mem_of_lt _ _ (by omega))
        · rw [if_neg h1, if_neg h2, if_neg h3] at hx; cases hx

/-- The strip batch `0, 1, 2, 3` becomes the triangles `(0, 1, 2)` and
`(2, 1, 3)`. -/
theorem endCallback_expands_witness :
    3 ≤ stripTesselator.curIndices.length ∧
      stripTesselator.endCallback =
        .ok { stripTesselator with indices := [0, 1, 2, 2, 1, 3], curIndices := [] } :=
  ⟨by decide, ((endCallback_expands stripTesselator (by decide)).2.2.1 rfl).trans (by rfl)⟩

end Tesselator

/-! ## Polygon.tesselate and Polygon.finish -/

namespace Polygon

theorem tesselate_of_no_exterior (glu : TVec3d → List (List (Nat × TVec3d)) → List GluEvent)
    (tess : Tesselator) (n : TVec3d) (p : Polygon) (h : p.exteriorRing = none) :
    p.tesselate glu tess n = .error .nullDereference := by
  unfold tesselate mergeRings
  simp only [h]
  rfl

theorem finish_of_no_exterior (normal : TVec3d → TVec3d)
    (glu : TVec3d → List (List (Nat × TVec3d)) → List GluEvent)
    (tess : Tesselator) (doTesselate : Bool) (p : Polygon) (h : p.exteriorRing = none) :
    p.finish normal glu tess doTesselate = .error .nullDereference := by
  unfold finish
  cases doTesselate
  · simp only [Bool.false_eq_true, if_false]
    unfold mergeRings
    simp only [h]
    rfl
  · simp only [if_true]
    rw [tesselate_of_no_exterior _ _ _ _ h]
    rfl

theorem fillNormals_resize (l : List TVec3f) (count : Nat) (d n : TVec3f) :
    fillNormals (resize l count d) count n = List.replicate count n := by
  apply List.ext_getElem?
  intro j
  have key : ∀ (m : Nat) (buf : List TVec3f),
      ((List.range m).foldl (fun acc i => acc.set i n) buf)[j]? =
        if j < m ∧ j < buf.length then some n else buf[j]? := by
    intro m
    induction m with
    | zero => intro buf; simp
    | succ m ih =>
      intro buf
      have hlen : ∀ (k : Nat) (b : List TVec3f),
          ((List.range k).foldl (fun acc i => acc.set i n) b).length = b.length := by
        intro k
        induction k with
        | zero => intro b; rfl
        | succ k ihk =>
          intro b
          rw [List.range_succ, List.foldl_append]
          simp only [List.foldl_cons, List.foldl_nil, List.length_set]
          exact ihk b
      rw [List.range_succ, List.foldl_append]
      simp only [List.foldl_cons, List.foldl_nil]
      rw [List.getElem?_set, hlen]
      by_cases hj : m = j
      · subst hj
        by_cases hb : m < buf.length
        · simp [hb]
        · simp [hb]
          omega
      · simp only [hj, if_false]
        rw [ih]
        have : (j < m + 1) ↔ (j < m) := by omega
        simp only [this]
  unfold fillNormals
  rw [key, length_resize, getElem?_resize, List.getElem?_replicate]
  by_cases hj : j < count
  · simp [hj]
  · simp [hj]


theorem mergeRings_ok_rings (p q : Polygon) (h : p.mergeRings = .ok q) :
    q.exteriorRing = none ∧ q.interiorRings = [] := by
  unfold mergeRings at h
  split at h
  · cases h
  · simp only [] at h
    split at h
    · cases h; exact ⟨rfl, rfl⟩
    · split at h
      · cases h; exact ⟨rfl, rfl⟩
      · cases hf : fillIndices _ _ with
        | error e => rw [hf] at h; cases h
        | ok idx => rw [hf] at h; cases h; exact ⟨rfl, rfl⟩

theorem tesselate_ok_rings (glu : TVec3d → List (List (Nat × TVec3d)) → List GluEvent)
    (tess t : Tesselator) (n : TVec3d) (p q : Polygon)
    (h : p.tesselate glu tess n = .ok (q, t)) :
    q.exteriorRing = none ∧ q.interiorRings = [] := by
  unfold tesselate at h
  simp only [] at h
  have hfb : ∀ r : Polygon, (r.mergeRings.map fun q => (q, tess)) = .ok (q, t) →
      q.exteriorRing = none ∧ q.interiorRings = [] := by
    intro r hr
    cases hm : r.mergeRings with
    | error e => rw [hm] at hr; cases hr
    | ok q1 =>
      rw [hm] at hr
      cases hr
      exact mergeRings_ok_rings r q hm
  split at h
  · exact hfb _ h
  · split at h
    · exact hfb _ h
    · cases hc : Tesselator.compute glu _ with
      | error e => rw [hc] at h; cases h
      | ok t3 => rw [hc] at h; cases h; exact ⟨rfl, rfl⟩

/-- When `finish` returns, there is one normal per vertex, each the face
normal computed before the rings were released, narrowed to `float`, and no
ring is left. -/
theorem finish_ok_normals (normal : TVec3d → TVec3d)
    (glu : TVec3d → List (List (Nat × TVec3d)) → List GluEvent)
    (tess t : Tesselator) (doTesselate : Bool) (p q : Polygon)
    (h : p.finish normal glu tess doTesselate = .ok (q, t)) :
    q.normals = List.replicate q.vertices.length (TVec3f.ofDouble (p.computeNormal normal)) ∧
      q.exteriorRing = none ∧ q.interiorRings = [] := by
  unfold finish at h
  simp only [] at h
  cases hr : (if doTesselate = true then p.tesselate glu tess (p.computeNormal normal)
      else p.mergeRings.map fun q => (q, tess)) with
  | error e => rw [hr] at h; cases h
  | ok r =>
    rw [hr] at h
    cases h
    have hrings : r.1.exteriorRing = none ∧ r.1.interiorRings = [] := by
      cases doTesselate
      · simp only [Bool.false_eq_true, if_false] at hr
        cases hm : p.mergeRings with
        | error e => rw [hm] at hr; cases hr
        | ok q1 => rw [hm] at hr; cases hr; exact mergeRings_ok_rings p q1 hm
      · simp only [if_true] at hr
        exact tesselate_ok_rings glu tess r.2 _ p r.1 hr
    exact ⟨fillNormals_resize _ _ _ _, hrings.1, hrings.2⟩

/-- C14, at the failing inputs. With `doTesselate = false` the finalisation of
a polygon whose exterior ring is the unit square writes past the end of the
index buffer in `mergeRings`, and the finalisation of a polygon without
exterior ring dereferences the missing ring, for either flag; no normal buffer
results.  (Whenever `finish` returns, every normal is the face normal narrowed
to `float`: `finish_ok_normals`.) -/
theorem finish_faults_in_mergeRings (normal : TVec3d → TVec3d)
    (glu : TVec3d → List (List (Nat × TVec3d)) → List GluEvent) (tess : Tesselator) :
    quadPolygon.finish normal glu tess false = .error .outOfBounds ∧
      ∀ doTesselate, ringlessPolygon.finish normal glu tess doTesselate
        = .error .nullDereference :=
  ⟨rfl, fun d => finish_of_no_exterior _ _ _ d _ rfl⟩

/-- C17, at the failing inputs. On a polygon without exterior ring `tesselate`
and `finish` (either flag) take the fallback, which dereferences the missing
ring; on a polygon whose exterior ring has two points and whose interior ring
has three the fallback writes past the end of the index buffer. -/
theorem tesselate_faults_on_degenerate (normal : TVec3d → TVec3d)
    (glu : TVec3d → List (List (Nat × TVec3d)) → List GluEvent) (tess : Tesselator)
    (n : TVec3d) :
    ringlessPolygon.tesselate glu tess n = .error .nullDereference ∧
    (∀ doTesselate, ringlessPolygon.finish normal glu tess doTesselate
      = .error .nullDereference) ∧
    shortExteriorPolygon.tesselate glu tess n = .error .outOfBounds :=
  ⟨tesselate_of_no_exterior _ _ _ _ rfl, fun d => finish_of_no_exterior _ _ _ d _ rfl, rfl⟩

/-- C18, where the claim fails. For every vertex count `n ≥ 4` the
index-filling loop of `mergeRings`, run on the buffer resized to `3 * (n - 2)`
entries, writes past the end of that buffer. -/
theorem fillIndices_writes_past_end (n : Nat) (h4 : 4 ≤ n) :
    fillIndices (3 * (n - 2)) (resize [] (3 * (n - 2)) 0) = .error .outOfBounds :=
  fillIndices_out_of_bounds _ (n - 2) (by omega) (length_resize _ _ _)

/-- The loop on four vertices, where the buffer has six entries. -/
theorem fillIndices_writes_past_end_witness :
    4 ≤ 4 ∧ fillIndices (3 * (4 - 2)) (resize [] (3 * (4 - 2)) 0) = .error .outOfBounds :=
  ⟨by decide, fillIndices_writes_past_end 4 (by decide)⟩

/-- C19. When `A` and `B` both satisfy the finalised-polygon invariant (every
index below the vertex count, index count a multiple of three, one normal per
vertex), the vertex counts together fit the 32-bit index type and `A.merge(B)`
returns true, then `A` after the call satisfies the invariant and so does `B`
after the call. -/
theorem merge_preserves_finalized (A B : Polygon) (hA : A.Finalized) (hB : B.Finalized)
    (hfit : A.vertices.length + B.vertices.length ≤ 4294967296)
    (hok : (A.merge (some B)).1 = true) :
    (A.merge (some B)).2.1.Finalized ∧
      ∃ B1, (A.merge (some B)).2.2 = some B1 ∧ B1.Finalized := by
  have happ : B.appearance = A.appearance := by
    by_contra hne
    have : (A.merge (some B)).1 = false := by simp [Polygon.merge, hne]
    rw [this] at hok
    cases hok
  by_cases he : B.vertices = []
  · rw [merge_eq_of_no_vertices A B happ he]
    exact ⟨hA, B, rfl, hB⟩
  · rw [merge_eq_of_vertices A B happ he]
    obtain ⟨hA1, hA2, hA3⟩ := hA
    obtain ⟨hB1, hB2, hB3⟩ := hB
    refine ⟨⟨?_, ?_, ?_⟩, _, rfl, ⟨?_, ?_, ?_⟩⟩
    · intro k hk
      simp only [List.mem_append, List.mem_map] at hk
      simp only [List.length_append]
      rcases hk with hk | ⟨b, hb, rfl⟩
      · have := hA1 k hk
        omega
      · have hb1 := hB1 b hb
        rw [Nat.mod_eq_of_lt (by omega)]
        omega
    · simp only [List.length_append, List.length_map]
      omega
    · simp only [List.length_append]
      omega
    · intro k hk
      cases hk
    · rfl
    · rfl

/-- Two finalised triangles merge into a finalised polygon. -/
theorem merge_preserves_finalized_witness :
    (finalizedPolygon "a").Finalized ∧ (finalizedPolygon "b").Finalized ∧
      ((finalizedPolygon "a").merge (some (finalizedPolygon "b"))).2.1.Finalized := by
  have h := merge_preserves_finalized (finalizedPolygon "a") (finalizedPolygon "b") (by decide)
    (by decide) (by decide) (by decide)
  exact ⟨by decide, by decide, h.1⟩

/-- C20, amended. For a successful `A.merge(B)` where `B` has a vertex and for
every `i < min(len(B.texCoords), len(B.vertices))`, the `i`-th texture
coordinate of `B` is stored in `A` at position
`min(len(A.texCoords), len(A.vertices)) + i`; this is the position
`len(A.vertices) + i` of the vertex `B` contributed when `A` had at least as
many texture coordinates as vertices; and the first
`min(len(A.texCoords), len(A.vertices))` coordinates of `A` are unchanged. -/
theorem merge_texCoords_position (A B : Polygon) (happ : B.appearance = A.appearance)
    (hne : B.vertices ≠ []) (i : Nat) (hi : i < min B.texCoords.length B.vertices.length) :
    (A.merge (some B)).1 = true ∧
    (A.merge (some B)).2.1.texCoords[min A.texCoords.length A.vertices.length + i]?
      = B.texCoords[i]? ∧
    (A.vertices.length ≤ A.texCoords.length →
      (A.merge (some B)).2.1.texCoords[A.vertices.length + i]? = B.texCoords[i]?) ∧
    (A.merge (some B)).2.1.texCoords.take (min A.texCoords.length A.vertices.length)
      = A.texCoords.take (min A.texCoords.length A.vertices.length) := by
  rw [merge_eq_of_vertices A B happ hne]
  have hlenA : (A.texCoords.take (min A.texCoords.length A.vertices.length)).length
      = min A.texCoords.length A.vertices.length := by
    rw [List.length_take]; omega
  have hpos : (A.texCoords.take (min A.texCoords.length A.vertices.length) ++
        B.texCoords.take (min B.texCoords.length B.vertices.length))[
          min A.texCoords.length A.vertices.length + i]? = B.texCoords[i]? := by
    rw [List.getElem?_append_right (by omega), hlenA, Nat.add_sub_cancel_left,
      List.getElem?_take_of_lt hi]
  refine ⟨rfl, hpos, ?_, ?_⟩
  · intro hle
    have e : A.vertices.length + i = min A.texCoords.length A.vertices.length + i := by omega
    rw [e]
    exact hpos
  · simp only []
    rw [List.take_append_of_le_length (by omega), List.take_take, Nat.min_self]

/-- Two finalised triangles: the first coordinate of the second lands at
position 3, next to its vertex. -/
theorem merge_texCoords_position_witness :
    (finalizedPolygon "b").vertices ≠ [] ∧
      ((finalizedPolygon "a").merge (some (finalizedPolygon "b"))).2.1.texCoords[3 + 0]?
        = (finalizedPolygon "b").texCoords[0]? :=
  ⟨by decide,
    ((merge_texCoords_position (finalizedPolygon "a") (finalizedPolygon "b") rfl (by decide) 0
      (by decide)).2.2.1 (by decide))⟩

/-- C20, the claim as stated fails. `untexturedPolygon` has one vertex and no
texture coordinate, `texturedPolygon` one vertex with its coordinate; after the
merge that coordinate is at position 0 and position `1 + 0`, that of the
vertex contributed, holds nothing. -/
theorem merge_texCoords_counterexample :
    texturedPolygon.appearance = untexturedPolygon.appearance ∧
      texturedPolygon.vertices ≠ [] ∧
      0 < min texturedPolygon.texCoords.length texturedPolygon.vertices.length ∧
      (untexturedPolygon.merge (some texturedPolygon)).1 = true ∧
      (untexturedPolygon.merge (some texturedPolygon)).2.1.texCoords[
          untexturedPolygon.vertices.length + 0]? ≠ texturedPolygon.texCoords[0]? := by
  decide

end Polygon

/-! ## Appearance resolution -/

theorem Polygon.finishAppearance_eq (am : AppearanceManager) (defAppearance : Option Nat)
    (geometryIds : Nat → Option String) (gid : String) (p : Polygon)
    (h : p.geometry.bind geometryIds = some gid) :
    p.finishAppearance am defAppearance geometryIds = .ok (p.resolved am defAppearance gid) := by
  unfold Polygon.finishAppearance Polygon.resolved
  simp only [h]
  by_cases hown : (am.getTexCoords p.id p.texCoords).1 = true
  · simp only [hown, if_true]
    rfl
  · simp only [hown, if_false]
    rfl

theorem mapM_ok {α β : Type} (f : α → Except Fault β) (g : α → β) (l : List α)
    (h : ∀ x ∈ l, f x = .ok (g x)) : l.mapM f = .ok (l.map g) := by
  induction l with
  | nil => rfl
  | cons x xs ih =>
    rw [List.mapM_cons, h x (List.mem_cons_self _ _),
      ih (fun y hy => h y (List.mem_cons_of_mem _ hy))]
    rfl

theorem Geometry.finish_unoptimized_eq (am : AppearanceManager) (defAppearance : Option Nat)
    (geometryIds : Nat → Option String) (g : Geometry)
    (h : ∀ p ∈ g.polygons, p.geometry.bind geometryIds = some g.id) :
    g.finish am defAppearance false geometryIds =
      .ok { g with
        polygons := g.polygons.map
          (Polygon.resolved am
            (if (am.getAppearance g.id).isSome then am.getAppearance g.id else defAppearance)
            g.id) } := by
  unfold Geometry.finish
  simp only []
  rw [mapM_ok _ _ _ (fun p hp => Polygon.finishAppearance_eq am _ geometryIds g.id p (h p hp))]
  rfl

theorem CityObject.finish_unoptimized_all_eq (am : AppearanceManager) (geometryIds : Nat → Option String)
    (o : CityObject)
    (h : ∀ g ∈ o.geometries, ∀ p ∈ g.polygons, p.geometry.bind geometryIds = some g.id) :
    o.finish am false geometryIds =
      .ok { o with
        geometries := o.geometries.map fun g =>
          { g with
            polygons := g.polygons.map
              (Polygon.resolved am
                (if (am.getAppearance g.id).isSome then am.getAppearance g.id
                  else am.getAppearance o.id)
                g.id) } } := by
  unfold CityObject.finish
  simp only []
  rw [mapM_ok _ _ _ (fun g hg => Geometry.finish_unoptimized_eq am _ geometryIds g (h g hg))]
  rfl

theorem getTexCoords_found (am : AppearanceManager) (n : String) (t buf1 buf2 : TexCoords)
    (h : am.getTexCoords n buf1 = (true, t)) : am.getTexCoords n buf2 = (true, t) := by
  unfold AppearanceManager.getTexCoords at h ⊢
  split at h
  · exact h
  · cases h

theorem getTexCoords_fst (am : AppearanceManager) (n : String) (buf1 buf2 : TexCoords) :
    (am.getTexCoords n buf1).1 = (am.getTexCoords n buf2).1 := by
  unfold AppearanceManager.getTexCoords
  split <;> rfl

/-- C15. When every polygon of every geometry of `o` refers to that geometry
as its owner, `CityObject.finish` with `optimize = false` returns, and for
every geometry `g` of `o` and every polygon `p` of `g` the resolved appearance
of `p` is the one bound to the identifier of `p` if there is one, else the one
bound to the identifier of `g` if there is one, else the one bound to the
identifier of `o` if there is one, else none; the texture-coordinate buffer of
`p` has `len(p.vertices)` entries, resized from the coordinates recorded for the
identifier of `p` or else for the identifier of `g`. -/
theorem CityObject.finish_resolves (o : CityObject) (am : AppearanceManager)
    (geometryIds : Nat → Option String)
    (howner : ∀ g ∈ o.geometries, ∀ p ∈ g.polygons, p.geometry.bind geometryIds = some g.id) :
    ∃ o1, o.finish am false geometryIds = .ok o1 ∧
      o1.geometries.length = o.geometries.length ∧
      ∀ (i j : Nat) (g : Geometry) (p : Polygon),
        o.geometries[i]? = some g → g.polygons[j]? = some p →
        ∃ (g1 : Geometry) (p1 : Polygon), o1.geometries[i]? = some g1 ∧ g1.polygons.length = g.polygons.length ∧
          g1.polygons[j]? = some p1 ∧ p1.id = p.id ∧ p1.vertices = p.vertices ∧
          p1.appearance =
            (am.getAppearance p.id).or ((am.getAppearance g.id).or (am.getAppearance o.id)) ∧
          p1.texCoords.length = p.vertices.length ∧
          (∀ t, am.getTexCoords p.id [] = (true, t) →
            p1.texCoords = resize t p.vertices.length ⟨0, 0⟩) ∧
          ((am.getTexCoords p.id []).1 = false → ∀ t, am.getTexCoords g.id [] = (true, t) →
            p1.texCoords = resize t p.vertices.length ⟨0, 0⟩) := by
  refine ⟨_, CityObject.finish_unoptimized_all_eq am geometryIds o howner, by simp, ?_⟩
  intro i j g p hg hp
  refine ⟨{ g with
      polygons := g.polygons.map
        (Polygon.resolved am
          (if (am.getAppearance g.id).isSome then am.getAppearance g.id
            else am.getAppearance o.id)
          g.id) },
    Polygon.resolved am
      (if (am.getAppearance g.id).isSome then am.getAppearance g.id else am.getAppearance o.id)
      g.id p,
    by simp only [List.getElem?_map, hg, Option.map_some'], by simp,
    by simp only [List.getElem?_map, hp, Option.map_some'], rfl, rfl, ?_, ?_, ?_, ?_⟩
  · unfold Polygon.resolved
    simp only []
    cases h1 : am.getAppearance p.id with
    | some a => simp
    | none =>
      cases h2 : am.getAppearance g.id with
      | some a => simp
      | none => simp
  · simp [Polygon.resolved, length_resize]
  · intro t ht
    have h1 := getTexCoords_found am p.id t [] p.texCoords ht
    simp [Polygon.resolved, h1]
  · intro hf t ht
    have h1 : (am.getTexCoords p.id p.texCoords).1 = false := by
      rw [getTexCoords_fst am p.id p.texCoords []]; exact hf
    have h2 := getTexCoords_found am g.id t [] (am.getTexCoords p.id p.texCoords).2 ht
    simp [Polygon.resolved, h1, h2]

/-- The sample city object: its polygons refer to their geometries and the
finalisation without optimisation returns its two geometries. -/
theorem CityObject.finish_resolves_witness :
    (∀ g ∈ twoGeometries.geometries, ∀ p ∈ g.polygons,
        p.geometry.bind sampleIds = some g.id) ∧
      ∃ o1, twoGeometries.finish sampleManager false sampleIds = .ok o1 ∧
        o1.geometries.length = twoGeometries.geometries.length := by
  have howner : ∀ g ∈ twoGeometries.geometries, ∀ p ∈ g.polygons,
      p.geometry.bind sampleIds = some g.id := by decide
  obtain ⟨o1, h1, h2, _⟩ := CityObject.finish_resolves twoGeometries sampleManager sampleIds howner
  exact ⟨howner, o1, h1, h2⟩

/-! ## Owner references -/

theorem Geometry.owned_addPolygon (g : Geometry) (p : Polygon) (h : g.Owned) :
    (g.addPolygon p).Owned := by
  intro q hq
  simp only [Geometry.addPolygon, List.mem_append, List.mem_singleton] at hq
  rcases hq with hq | rfl
  · exact h q hq
  · rfl

theorem Geometry.merge_eq_of_compatible (A B : Geometry) (hlod : B.lod = A.lod)
    (htype : B.type = A.type) :
    A.merge (some B) =
      (true, { A with polygons := A.polygons ++ B.polygons, id := A.id ++ "+" ++ B.id },
        some { B with polygons := [] }) := by
  simp [Geometry.merge, hlod, htype, foldl_push_back]

/-- C21, with the failing case. The call `Geometry::addPolygon` stores the
polygon with this geometry as its owner and keeps the owner invariant; but
after a successful `A.merge(B)`, for distinct `A` and `B` where every
polygon of `B` refers to `B`, the polygons of `A` are its own followed by
those of `B`, and every polygon moved from `B` still refers to `B`, not to
`A`: when `B` held a polygon the owner invariant of `A` is lost. -/
theorem Geometry.merge_keeps_old_owner :
    (∀ (g : Geometry) (p : Polygon),
      (g.addPolygon p).polygons = g.polygons ++ [{ p with geometry := some g.addr }] ∧
      (g.addPolygon p).addr = g.addr ∧ (g.Owned → (g.addPolygon p).Owned)) ∧
    (∀ (A B : Geometry), B.Owned → A.addr ≠ B.addr → (A.merge (some B)).1 = true →
      (A.merge (some B)).2.1.addr = A.addr ∧
      (A.merge (some B)).2.1.polygons = A.polygons ++ B.polygons ∧
      (∀ p ∈ B.polygons, p.geometry = some B.addr ∧ p.geometry ≠ some A.addr) ∧
      (B.polygons ≠ [] → ¬ (A.merge (some B)).2.1.Owned)) := by
  refine ⟨fun g p => ⟨rfl, rfl, Geometry.owned_addPolygon g p⟩, ?_⟩
  intro A B hB hne hok
  have hc : B.lod = A.lod ∧ B.type = A.type := by
    by_contra h
    have h2 : B.lod ≠ A.lod ∨ B.type ≠ A.type := by tauto
    have : (A.merge (some B)).1 = false := by simp [Geometry.merge, h2]
    rw [this] at hok
    cases hok
  rw [Geometry.merge_eq_of_compatible A B hc.1 hc.2]
  have hmoved : ∀ p ∈ B.polygons, p.geometry = some B.addr ∧ p.geometry ≠ some A.addr := by
    intro p hp
    refine ⟨hB p hp, ?_⟩
    rw [hB p hp]
    intro h
    exact hne (Option.some.inj h).symm
  refine ⟨rfl, rfl, hmoved, ?_⟩
  intro hnil hown
  obtain ⟨p, hp⟩ := List.exists_mem_of_ne_nil _ hnil
  exact (hmoved p hp).2 (hown p (List.mem_append_right _ hp))

/-- The geometry at address 1 absorbs the geometry at address 2, whose polygon
goes on referring to address 2. -/
theorem Geometry.merge_keeps_old_owner_witness :
    (sampleGeometry 2 "h").Owned ∧ (sampleGeometry 1 "g").Owned ∧
      ((sampleGeometry 1 "g").merge (some (sampleGeometry 2 "h"))).1 = true ∧
      ¬ ((sampleGeometry 1 "g").merge (some (sampleGeometry 2 "h"))).2.1.Owned := by
  have h := Geometry.merge_keeps_old_owner.2 (sampleGeometry 1 "g") (sampleGeometry 2 "h") (by decide) (by decide)
    (by decide)
  exact ⟨by decide, by decide, by decide, h.2.2.2 (by decide)⟩

/-! ## The merge pass keeps the vertices -/

theorem sum_eraseIdx (L : List Nat) (j : Nat) (hj : j < L.length) :
    (L.eraseIdx j).sum + L.getD j 0 = L.sum := by
  induction L generalizing j with
  | nil => simp at hj
  | cons x L ih =>
    cases j with
    | zero => simp; omega
    | succ j =>
      have := ih j (by simpa using hj)
      simp only [List.eraseIdx_cons_succ, List.sum_cons, List.getD_cons_succ]
      omega

theorem sum_set_eraseIdx (L : List Nat) (i j v : Nat) (hij : i < j) (hj : j < L.length) :
    ((L.set i v).eraseIdx j).sum + L.getD i 0 + L.getD j 0 = L.sum + v := by
  induction L generalizing i j with
  | nil => simp at hj
  | cons x L ih =>
    cases j with
    | zero => omega
    | succ j =>
      have hj1 : j < L.length := by simpa using hj
      cases i with
      | zero =>
        have := sum_eraseIdx L j hj1
        simp only [List.set_cons_zero, List.eraseIdx_cons_succ, List.sum_cons,
          List.getD_cons_zero, List.getD_cons_succ]
        omega
      | succ i =>
        have := ih i j (by omega) hj1
        simp only [List.set_cons_succ, List.eraseIdx_cons_succ, List.sum_cons,
          List.getD_cons_succ]
        omega

theorem map_eraseIdx_eq {α β : Type} (f : α → β) (l : List α) (j : Nat) :
    (l.eraseIdx j).map f = (l.map f).eraseIdx j := by
  induction l generalizing j with
  | nil => rfl
  | cons x l ih =>
    cases j with
    | zero => rfl
    | succ j => simp only [List.eraseIdx_cons_succ, List.map_cons, ih]

theorem map_ok_inv {α β : Type} (f : α → β) (r : Except Fault α) (q : β)
    (h : r.map f = .ok q) : ∃ v, r = .ok v ∧ q = f v := by
  cases r with
  | error e => cases h
  | ok v =>
    cases h
    exact ⟨v, rfl, rfl⟩

theorem Polygon.merge_vertices_length (a b a1 : Polygon) (b1 : Option Polygon)
    (h : a.merge (some b) = (true, a1, b1)) :
    a1.vertices.length = a.vertices.length + b.vertices.length := by
  by_cases happ : b.appearance = a.appearance
  · by_cases he : b.vertices = []
    · rw [Polygon.merge_eq_of_no_vertices a b happ he] at h
      cases h
      simp [he]
    · rw [Polygon.merge_eq_of_vertices a b happ he] at h
      cases h
      simp
  · simp [Polygon.merge, happ] at h

theorem mergeAt_polygons (xs ys : List Polygon) (i j : Nat) (hij : i < j)
    (h : mergeAt Polygon.merge xs i j = some ys) :
    ys.length + 1 = xs.length ∧ totalVertices ys = totalVertices xs := by
  unfold mergeAt at h
  cases hi : xs[i]? with
  | none => simp [hi] at h
  | some a =>
    cases hjj : xs[j]? with
    | none => simp [hi, hjj] at h
    | some b =>
      simp only [hi, hjj] at h
      have hjlt : j < xs.length := by
        by_contra hc
        rw [List.getElem?_eq_none (by omega)] at hjj
        cases hjj
      have hilt : i < xs.length := by omega
      rcases hm : a.merge (some b) with ⟨r, a1, b1⟩
      rw [hm] at h
      cases r with
      | false => simp at h
      | true =>
        simp only [Option.some.injEq] at h
        subst h
        have hlen := Polygon.merge_vertices_length a b a1 b1 hm
        refine ⟨?_, ?_⟩
        · rw [List.length_eraseIdx]
          simp [hjlt]
          omega
        · unfold totalVertices
          have hL := sum_set_eraseIdx (xs.map fun p => p.vertices.length) i j
            a1.vertices.length hij (by simpa using hjlt)
          have e1 : (xs.map fun p => p.vertices.length).getD i 0 = a.vertices.length := by
            rw [List.getD_eq_getElem?_getD, List.getElem?_map, hi]
            rfl
          have e2 : (xs.map fun p => p.vertices.length).getD j 0 = b.vertices.length := by
            rw [List.getD_eq_getElem?_getD, List.getElem?_map, hjj]
            rfl
          have e3 : ((xs.set i a1).eraseIdx j).map (fun p => p.vertices.length)
              = ((xs.map fun p => p.vertices.length).set i a1.vertices.length).eraseIdx j := by
            rw [map_eraseIdx_eq, List.map_set]
          rw [e3]
          rw [e1, e2] at hL
          omega

theorem mergeScan_polygons (iSub jSub : Nat) (xs ys : List Polygon)
    (h : mergeScan Polygon.merge iSub jSub xs = some ys) :
    ys.length + 1 = xs.length ∧ totalVertices ys = totalVertices xs := by
  unfold mergeScan at h
  obtain ⟨i, _, hi⟩ := List.exists_of_findSome?_eq_some h
  obtain ⟨j, hj, hij⟩ := List.exists_of_findSome?_eq_some hi
  have hmem := List.mem_range'_1.mp hj
  exact mergeAt_polygons xs ys i j (by omega) hij

theorem mergeLoop_of_scan_some {α : Type} (merge : α → Option α → Bool × α × Option α)
    (iSub jSub : Nat) (xs ys : List α) (h : mergeScan merge iSub jSub xs = some ys) :
    mergeLoop merge iSub jSub xs = mergeLoop merge iSub jSub ys := by
  rw [mergeLoop]
  split
  · rename_i h0
    rw [h] at h0
    cases h0
  · rename_i zs hzs
    rw [h] at hzs
    cases hzs
    rfl

theorem mergeLoop_polygons (iSub jSub : Nat) (n : Nat) (xs : List Polygon)
    (hn : xs.length ≤ n) :
    (mergeLoop Polygon.merge iSub jSub xs).length ≤ xs.length ∧
      totalVertices (mergeLoop Polygon.merge iSub jSub xs) = totalVertices xs := by
  induction n generalizing xs with
  | zero =>
    have hnil : xs = [] := List.length_eq_zero.mp (by omega)
    subst hnil
    rw [mergeLoop_of_scan_none _ _ _ _ (by simp [mergeScan])]
    exact ⟨le_refl _, rfl⟩
  | succ n ih =>
    cases hs : mergeScan Polygon.merge iSub jSub xs with
    | none =>
      rw [mergeLoop_of_scan_none _ _ _ _ hs]
      exact ⟨le_refl _, rfl⟩
    | some ys =>
      obtain ⟨hlen, htot⟩ := mergeScan_polygons iSub jSub xs ys hs
      obtain ⟨h1, h2⟩ := ih ys (by omega)
      have e := mergeLoop_of_scan_some Polygon.merge iSub jSub xs ys hs
      rw [e]
      exact ⟨by omega, h2.trans htot⟩

theorem mergeLoop_scan_none (iSub jSub : Nat) (n : Nat) (xs : List Polygon)
    (hn : xs.length ≤ n) :
    mergeScan Polygon.merge iSub jSub (mergeLoop Polygon.merge iSub jSub xs) = none := by
  induction n generalizing xs with
  | zero =>
    have hnil : xs = [] := List.length_eq_zero.mp (by omega)
    subst hnil
    rw [mergeLoop_of_scan_none _ _ _ _ (by simp [mergeScan])]
    simp [mergeScan]
  | succ n ih =>
    cases hs : mergeScan Polygon.merge iSub jSub xs with
    | none =>
      rw [mergeLoop_of_scan_none _ _ _ _ hs]
      exact hs
    | some ys =>
      obtain ⟨hlen, _⟩ := mergeScan_polygons iSub jSub xs ys hs
      rw [mergeLoop_of_scan_some _ _ _ _ _ hs]
      exact ih ys (by omega)

/-! ## Geometry.finish -/

theorem Polygon.finishAppearance_vertices (am : AppearanceManager) (defAppearance : Option Nat)
    (geometryIds : Nat → Option String) (p q : Polygon)
    (h : p.finishAppearance am defAppearance geometryIds = .ok q) : q.vertices = p.vertices := by
  obtain ⟨v, _, rfl⟩ := map_ok_inv _ _ _ h
  rfl

theorem Polygon.finishAppearance_ok_of_live (am : AppearanceManager)
    (defAppearance : Option Nat) (geometryIds : Nat → Option String) (p : Polygon)
    (h : (p.geometry.bind geometryIds).isSome) :
    ∃ q, p.finishAppearance am defAppearance geometryIds = .ok q := by
  obtain ⟨gid, hg⟩ := Option.isSome_iff_exists.mp h
  exact ⟨_, Polygon.finishAppearance_eq am defAppearance geometryIds gid p hg⟩

theorem mapM_finishAppearance_vertices (am : AppearanceManager) (defAppearance : Option Nat)
    (geometryIds : Nat → Option String) (ps qs : List Polygon)
    (h : (ps.mapM fun (p : Polygon) => p.finishAppearance am defAppearance geometryIds)
      = .ok qs) :
    qs.length = ps.length ∧ totalVertices qs = totalVertices ps := by
  induction ps generalizing qs with
  | nil =>
    simp only [List.mapM_nil, pure, Except.pure] at h
    cases h
    exact ⟨rfl, rfl⟩
  | cons p ps ih =>
    rw [List.mapM_cons] at h
    cases h1 : p.finishAppearance am defAppearance geometryIds with
    | error e =>
      rw [h1] at h
      cases h
    | ok q =>
      cases h2 : (ps.mapM fun (p : Polygon) => p.finishAppearance am defAppearance geometryIds) with
      | error e =>
        rw [h1, h2] at h
        cases h
      | ok qs1 =>
        rw [h1, h2] at h
        cases h
        obtain ⟨hl, ht⟩ := ih qs1 h2
        have hv := Polygon.finishAppearance_vertices am defAppearance geometryIds p q h1
        refine ⟨by simp [hl], ?_⟩
        unfold totalVertices at ht ⊢
        simp only [List.map_cons, List.sum_cons, ht, hv]

theorem mapM_finishAppearance_ok (am : AppearanceManager) (defAppearance : Option Nat)
    (geometryIds : Nat → Option String) (ps : List Polygon)
    (h : ∀ p ∈ ps, (p.geometry.bind geometryIds).isSome) :
    ∃ qs, (ps.mapM fun (p : Polygon) => p.finishAppearance am defAppearance geometryIds)
      = .ok qs := by
  induction ps with
  | nil => exact ⟨[], rfl⟩
  | cons p ps ih =>
    obtain ⟨q, hq⟩ := Polygon.finishAppearance_ok_of_live am defAppearance geometryIds p
      (h p (List.mem_cons_self _ _))
    obtain ⟨qs, hqs⟩ := ih (fun x hx => h x (List.mem_cons_of_mem _ hx))
    refine ⟨q :: qs, ?_⟩
    rw [List.mapM_cons, hq, hqs]
    rfl

/-- Whenever `Geometry::finish` returns, no polygon was added and no vertex
lost. -/
theorem Geometry.finish_ok_vertices (g g1 : Geometry) (am : AppearanceManager)
    (defAppearance : Option Nat) (optimize : Bool) (geometryIds : Nat → Option String)
    (h : g.finish am defAppearance optimize geometryIds = .ok g1) :
    g1.polygons.length ≤ g.polygons.length ∧
      totalVertices g1.polygons = totalVertices g.polygons ∧
      (optimize = true → mergeScan Polygon.merge 1 1 g1.polygons = none) := by
  obtain ⟨qs, hm, rfl⟩ := map_ok_inv _ _ _ h
  obtain ⟨hl, ht⟩ := mapM_finishAppearance_vertices am _ geometryIds g.polygons qs hm
  cases optimize with
  | false =>
    simp only [Bool.false_eq_true, if_false]
    exact ⟨le_of_eq hl, ht, fun hf => absurd hf (by decide)⟩
  | true =>
    simp only [if_true]
    obtain ⟨h1, h2⟩ := mergeLoop_polygons 1 1 qs.length qs (le_refl _)
    exact ⟨by omega, h2.trans ht, fun _ => mergeLoop_scan_none 1 1 qs.length qs (le_refl _)⟩

/-- C22. For every geometry whose polygons refer to a live geometry and either
value of `optimize`, `Geometry::finish` returns; the geometry then holds at
most as many polygons as before and the number of vertices summed over its
polygons is the one before the call; with `optimize = true` the pass has
stopped on a scan that merged nothing. -/
theorem Geometry.finish_loses_no_vertices (g : Geometry) (am : AppearanceManager) (defAppearance : Option Nat)
    (optimize : Bool) (geometryIds : Nat → Option String)
    (hlive : ∀ p ∈ g.polygons, (p.geometry.bind geometryIds).isSome) :
    ∃ g1, g.finish am defAppearance optimize geometryIds = .ok g1 ∧
      g1.polygons.length ≤ g.polygons.length ∧
      totalVertices g1.polygons = totalVertices g.polygons ∧
      (optimize = true → mergeScan Polygon.merge 1 1 g1.polygons = none) := by
  obtain ⟨qs, hqs⟩ := mapM_finishAppearance_ok am
    (if (am.getAppearance g.id).isSome then am.getAppearance g.id else defAppearance)
    geometryIds g.polygons hlive
  have hret : ∃ g1, g.finish am defAppearance optimize geometryIds = .ok g1 := by
    unfold Geometry.finish
    simp only [hqs, Except.map]
    exact ⟨_, rfl⟩
  obtain ⟨g1, h1⟩ := hret
  exact ⟨g1, h1, Geometry.finish_ok_vertices g g1 am defAppearance optimize geometryIds h1⟩

/-- Three triangles of one geometry: the finalisation with optimisation
returns at most three polygons holding nine vertices. -/
theorem Geometry.finish_loses_no_vertices_witness :
    (∀ p ∈ threePolygons.polygons, (p.geometry.bind sampleIds).isSome) ∧
      totalVertices threePolygons.polygons = 9 ∧
      ∃ g1, threePolygons.finish sampleManager none true sampleIds = .ok g1 ∧
        g1.polygons.length ≤ 3 ∧ totalVertices g1.polygons = 9 := by
  obtain ⟨g1, h1, h2, h3, _⟩ := Geometry.finish_loses_no_vertices threePolygons sampleManager none true sampleIds (by decide)
  exact ⟨by decide, by decide, g1, h1, h2, h3⟩

end citygml
